import Mathlib

set_option linter.unusedSectionVars false

/-!
Verification of a constraint-satisfaction-problem solver library.

The development shallowly embeds the library's data model and algorithms:
variables are identified by their name (a string); the hash map backing an
assignment is modelled as an association list whose operations mirror the
map operations used by the code (insert replaces in place, remove filters);
domains handled by the generic solvers are modelled as value lists (the
concrete domain representations are modelled separately); constraint
predicates are arbitrary boolean functions on assignments, as in the code.
Recursive search procedures take an explicit fuel parameter and return
none when the fuel is exhausted, so every statement about them is a
partial-correctness statement quantified over the fuel.
-/

namespace CspSolver

variable {T : Type} [DecidableEq T]

/-- An assignment is modelled as an association list from variable names to
values, standing for the hash map of the code. -/
@[reducible] def Assignment (T : Type) : Type := List (String × T)

namespace Assignment

/-- Lookup of the value assigned to a variable (first matching key). -/
def get : Assignment T → String → Option T
  | [], _ => none
  | (u, x) :: rest, v => if u = v then some x else get rest v

/-- Whether a variable is assigned. -/
def isAssigned (A : Assignment T) (v : String) : Bool :=
  (A.get v).isSome

/-- Map insert: replace the value in place when the key is present,
append otherwise. -/
def assign (A : Assignment T) (v : String) (x : T) : Assignment T :=
  if A.isAssigned v then
    A.map (fun p => if p.1 = v then (v, x) else p)
  else
    A ++ [(v, x)]

/-- Map remove. -/
def unassign (A : Assignment T) (v : String) : Assignment T :=
  A.filter (fun p => p.1 ≠ v)

/-- Number of assigned variables. -/
def size (A : Assignment T) : Nat := A.length

/-- The empty assignment. -/
def empty : Assignment T := []

/-- The list of assigned variable names. -/
def keys (A : Assignment T) : List String := A.map Prod.fst

end Assignment

/-- A constraint: a display name, an ordered scope of variables, and a
user-supplied predicate judging an assignment. -/
structure Constraint (T : Type) where
  name : String
  scope : List String
  pred : Assignment T → Bool

namespace Constraint

/-- is_satisfied: when every scope variable is assigned, evaluate the
predicate; otherwise the constraint is not yet violated. -/
def isSatisfied (c : Constraint T) (A : Assignment T) : Bool :=
  if c.scope.all (fun v => A.isAssigned v) then c.pred A else true

/-- involves: whether the constraint mentions the variable. -/
def involves (c : Constraint T) (v : String) : Bool :=
  c.scope.contains v

end Constraint

/-- The problem container: the variable-to-domain map (an association list
of value lists) and the ordered constraint list. -/
structure Csp (T : Type) where
  doms : List (String × List T)
  cons : List (Constraint T)

namespace Csp

/-- Domain lookup (first matching key). -/
def getDomain (csp : Csp T) : String → Option (List T) :=
  fun v => go csp.doms v
where
  go : List (String × List T) → String → Option (List T)
    | [], _ => none
    | (u, d) :: rest, v => if u = v then some d else go rest v

/-- The registered variables, in map order. -/
def getVariables (csp : Csp T) : List String :=
  csp.doms.map Prod.fst

/-- Number of registered variables. -/
def numVariables (csp : Csp T) : Nat := csp.doms.length

/-- is_consistent: every constraint is satisfied. -/
def isConsistent (csp : Csp T) (A : Assignment T) : Bool :=
  csp.cons.all (fun c => c.isSatisfied A)

/-- is_solution: complete and consistent. -/
def isSolution (csp : Csp T) (A : Assignment T) : Bool :=
  (A.size = csp.numVariables) && csp.isConsistent A

/-- The constraints involving a given variable, in order. -/
def constraintsFor (csp : Csp T) (v : String) : List (Constraint T) :=
  csp.cons.filter (fun c => c.involves v)

/-- Well-formedness established by add_constraint: every variable in any
constraint scope is registered. -/
def scopesRegistered (csp : Csp T) : Prop :=
  ∀ c ∈ csp.cons, ∀ v ∈ c.scope, v ∈ csp.getVariables

end Csp

section BasicLemmas

theorem Assignment.get_isSome_iff (A : Assignment T) (v : String) :
    (A.get v).isSome = true ↔ ∃ x, A.get v = some x := by
  cases h : A.get v <;> simp [h]

theorem Assignment.get_eq_none_of_not_mem_keys (A : Assignment T) (v : String)
    (h : v ∉ A.keys) : Assignment.get A v = none := by
  induction A with
  | nil => rfl
  | cons p rest ih =>
    obtain ⟨u, x⟩ := p
    simp only [Assignment.keys, List.map_cons, List.mem_cons] at h
    push_neg at h
    simp only [Assignment.get]
    rw [if_neg (fun hh => h.1 hh.symm)]
    exact ih h.2

end BasicLemmas

section ClaimC3

/-- Claim C3: for every constraint and assignment, if at least one scope
variable is unassigned the constraint is satisfied; if every scope variable
is assigned, is_satisfied equals the user predicate. -/
theorem constraint_isSatisfied_spec (c : Constraint T) (A : Assignment T) :
    ((∃ v ∈ c.scope, A.isAssigned v = false) → c.isSatisfied A = true) ∧
    ((∀ v ∈ c.scope, A.isAssigned v = true) → c.isSatisfied A = c.pred A) := by
  constructor
  · rintro ⟨v, hv, hun⟩
    unfold Constraint.isSatisfied
    rw [if_neg]
    intro hall
    rw [List.all_eq_true] at hall
    have := hall v hv
    rw [hun] at this
    exact Bool.false_ne_true this
  · intro hall
    unfold Constraint.isSatisfied
    rw [if_pos]
    rw [List.all_eq_true]
    exact hall

/-- A concrete inequality constraint on variables a and b, used by the C3
witness. -/
def c3con : Constraint Nat :=
  ⟨"c", ["a", "b"],
    fun A => decide (Assignment.get A "a" ≠ Assignment.get A "b")⟩

/-- A concrete partial assignment used by the C3 witness. -/
def c3A1 : Assignment Nat := [("a", 0)]

/-- A concrete total assignment used by the C3 witness. -/
def c3A2 : Assignment Nat := [("a", 0), ("b", 0)]

/-- Witness for C3 at a concrete constraint and assignments: the inequality
constraint on variables a and b is satisfied when b is unassigned, and
evaluates its predicate when both are assigned. -/
theorem constraint_isSatisfied_spec_witness :
    Constraint.isSatisfied c3con c3A1 = true ∧
    Constraint.isSatisfied c3con c3A2 = c3con.pred c3A2 := by
  constructor
  · exact (constraint_isSatisfied_spec c3con c3A1).1 ⟨"b", by decide, by decide⟩
  · exact (constraint_isSatisfied_spec c3con c3A2).2 (by decide)

end ClaimC3

section ClaimC10

/-- Claim C10: is_complete and is_solution compare only the count of
assigned variables, never their identity. For a Csp whose constraints all
have nonempty scopes made of registered variables, any assignment of
exactly num_variables values to variables that are all unregistered is
accepted by is_solution. -/
theorem isSolution_counts_only (csp : Csp T) (A : Assignment T)
    (hreg : csp.scopesRegistered)
    (hne : ∀ c ∈ csp.cons, c.scope ≠ [])
    (hsize : A.size = csp.numVariables)
    (hdisj : ∀ v ∈ A.keys, v ∉ csp.getVariables) :
    csp.isSolution A = true := by
  unfold Csp.isSolution
  rw [Bool.and_eq_true]
  refine ⟨by simp [hsize], ?_⟩
  unfold Csp.isConsistent
  rw [List.all_eq_true]
  intro c hc
  rcases hw : c.scope with _ | ⟨w, ws⟩
  · exact absurd hw (hne c hc)
  · have hwreg : w ∈ csp.getVariables := hreg c hc w (by rw [hw]; simp)
    have hwun : A.isAssigned w = false := by
      unfold Assignment.isAssigned
      rw [Assignment.get_eq_none_of_not_mem_keys]
      · rfl
      · intro hmem
        exact hdisj w hmem hwreg
    exact (constraint_isSatisfied_spec c A).1 ⟨w, by rw [hw]; simp, hwun⟩

/-- Witness for C10: a Csp with one registered variable a and one
constraint on a; the assignment giving the unregistered variable b the
value 5 is complete by count and accepted as a solution. -/
theorem isSolution_counts_only_witness :
    Csp.isSolution
      ⟨[("a", [0])], [⟨"c", ["a"], fun A => decide (A.get "a" = some 1)⟩]⟩
      ([("b", (5 : Nat))] : Assignment Nat) = true := by
  apply isSolution_counts_only
  · intro c hc v hv
    simp only [List.mem_singleton] at hc
    subst hc
    simp only [List.mem_singleton] at hv
    subst hv
    simp [Csp.getVariables]
  · intro c hc
    simp only [List.mem_singleton] at hc
    subst hc
    simp
  · rfl
  · intro v hv
    simp only [Assignment.keys, List.map_cons, List.map_nil,
      List.mem_singleton] at hv
    subst hv
    simp [Csp.getVariables]

end ClaimC10

/-!
Models of the four concrete domain representations. Each carrier is the
ordered value sequence reported by values(); set-backed representations
carry a duplicate-free enumeration of the underlying set (the code leaves
their iteration order unspecified, so a concrete enumeration is a faithful
model of every order-independent property).
-/

namespace HashSetDomain

/-- HashSetDomain::new collects the input into a hash set, which
deduplicates. -/
def new [DecidableEq T] (l : List T) : List T := l.dedup

/-- HashSetDomain::remove clones the set and removes the value. -/
def remove [DecidableEq T] (d : List T) (v : T) : List T :=
  d.filter (fun x => decide (x ≠ v))

/-- HashSetDomain::restrict_to keeps the values present in the keep
collection. -/
def restrict_to [DecidableEq T] (d : List T) (keep : List T) : List T :=
  d.filter (fun x => decide (x ∈ keep))

end HashSetDomain

namespace BTreeSetDomain

/-- BTreeSetDomain::new collects into an ordered set: deduplicated and
sorted ascending. -/
def new [LinearOrder T] (l : List T) : List T :=
  List.insertionSort (fun a b => a ≤ b) l.dedup

/-- BTreeSetDomain::remove clones the set and removes the value. -/
def remove [DecidableEq T] (d : List T) (v : T) : List T :=
  d.filter (fun x => decide (x ≠ v))

/-- BTreeSetDomain::restrict_to keeps the values present in the keep
collection. -/
def restrict_to [DecidableEq T] (d : List T) (keep : List T) : List T :=
  d.filter (fun x => decide (x ∈ keep))

end BTreeSetDomain

namespace VecDomain

/-- VecDomain::new collects the input as is: no deduplication. -/
def new (l : List T) : List T := l

/-- VecDomain::remove filters out every occurrence of the value. -/
def remove [DecidableEq T] (d : List T) (v : T) : List T :=
  d.filter (fun x => decide (x ≠ v))

/-- VecDomain::restrict_to keeps the values contained in the keep vector. -/
def restrict_to [DecidableEq T] (d : List T) (keep : List T) : List T :=
  d.filter (fun x => decide (x ∈ keep))

end VecDomain

namespace SortedVecDomain

/-- SortedVecDomain::new sorts the input and removes the (now adjacent)
duplicates. -/
def new [LinearOrder T] (l : List T) : List T :=
  (List.insertionSort (fun a b => a ≤ b) l).dedup

/-- SortedVecDomain::remove binary-searches for the value and removes the
found occurrence; when absent the clone is returned unchanged. On a sorted
duplicate-free carrier this is erasure of the value. -/
def remove [DecidableEq T] (d : List T) (v : T) : List T :=
  d.erase v

/-- The two-pointer merge walk of SortedVecDomain::restrict_to: the keep
pointer advances past smaller keeps, a match emits the value and advances,
a larger keep moves to the next value, and exhaustion of either side ends
the walk. -/
def merge [LinearOrder T] : List T → List T → List T
  | _, [] => []
  | [], _ :: _ => []
  | v :: vs, k :: ks =>
    if k < v then merge (v :: vs) ks
    else if k = v then v :: merge vs ks
    else merge vs (k :: ks)
  termination_by vs ks => vs.length + ks.length

/-- SortedVecDomain::restrict_to sorts the keep collection and merges it
against the sorted carrier. -/
def restrict_to [LinearOrder T] (d : List T) (keep : List T) : List T :=
  merge d (List.insertionSort (fun a b => a ≤ b) keep)

end SortedVecDomain

section DomainLemmas

variable [LinearOrder T]

theorem SortedVecDomain.merge_sublist (vs ks : List T) :
    (SortedVecDomain.merge vs ks).Sublist vs := by
  induction vs, ks using SortedVecDomain.merge.induct with
  | case1 vs => simp [SortedVecDomain.merge]
  | case2 k ks => simp [SortedVecDomain.merge]
  | case3 v vs k ks hlt ih =>
    rw [SortedVecDomain.merge, if_pos hlt]
    exact ih
  | case4 vs k ks hlt ih =>
    rw [SortedVecDomain.merge, if_neg hlt, if_pos rfl]
    exact List.Sublist.cons₂ k ih
  | case5 v vs k ks hlt hne ih =>
    rw [SortedVecDomain.merge, if_neg hlt, if_neg hne]
    exact List.Sublist.cons v ih

theorem SortedVecDomain.mem_merge (vs ks : List T)
    (hvs : vs.Sorted (· < ·)) (hks : ks.Sorted (· ≤ ·)) (x : T) :
    x ∈ SortedVecDomain.merge vs ks ↔ x ∈ vs ∧ x ∈ ks := by
  induction vs, ks using SortedVecDomain.merge.induct with
  | case1 vs => simp [SortedVecDomain.merge]
  | case2 k ks => simp [SortedVecDomain.merge]
  | case3 v vs k ks hlt ih =>
    rw [SortedVecDomain.merge, if_pos hlt]
    rw [List.sorted_cons] at hks
    rw [ih hvs hks.2]
    constructor
    · rintro ⟨h1, h2⟩
      exact ⟨h1, List.mem_cons_of_mem k h2⟩
    · rintro ⟨h1, h2⟩
      refine ⟨h1, ?_⟩
      rcases List.mem_cons.mp h2 with h | h
      · subst h
        rcases List.mem_cons.mp h1 with h | h
        · exact absurd h.symm (ne_of_gt hlt)
        · rw [List.sorted_cons] at hvs
          exact absurd (hvs.1 x h) (not_lt.mpr (le_of_lt hlt))
      · exact h
  | case4 vs k ks hlt ih =>
    rw [SortedVecDomain.merge, if_neg hlt, if_pos rfl]
    rw [List.sorted_cons] at hvs
    rw [List.sorted_cons] at hks
    rw [List.mem_cons, ih hvs.2 hks.2]
    constructor
    · rintro (h | ⟨h1, h2⟩)
      · subst h
        exact ⟨List.mem_cons_self _ _, List.mem_cons_self _ _⟩
      · exact ⟨List.mem_cons_of_mem _ h1, List.mem_cons_of_mem _ h2⟩
    · rintro ⟨h1, h2⟩
      rcases List.mem_cons.mp h1 with h | h
      · exact Or.inl h
      · refine Or.inr ⟨h, ?_⟩
        rcases List.mem_cons.mp h2 with h2a | h2a
        · exact absurd (hvs.1 x h) (by rw [h2a]; exact lt_irrefl _)
        · exact h2a
  | case5 v vs k ks hlt hne ih =>
    rw [SortedVecDomain.merge, if_neg hlt, if_neg hne]
    rw [List.sorted_cons] at hvs
    rw [ih hvs.2 hks]
    have hvlt : v < k := lt_of_le_of_ne (not_lt.mp hlt) (Ne.symm hne)
    constructor
    · rintro ⟨h1, h2⟩
      exact ⟨List.mem_cons_of_mem v h1, h2⟩
    · rintro ⟨h1, h2⟩
      rcases List.mem_cons.mp h1 with h | h
      · subst h
        rw [List.sorted_cons] at hks
        rcases List.mem_cons.mp h2 with h2a | h2a
        · exact absurd h2a (ne_of_lt hvlt)
        · exact absurd (hks.1 x h2a) (not_le.mpr hvlt)
      · exact ⟨h, h2⟩

theorem sorted_le_insertionSort (l : List T) :
    (List.insertionSort (fun a b => a ≤ b) l).Sorted (· ≤ ·) :=
  List.sorted_insertionSort (fun a b => a ≤ b) l

theorem mem_insertionSort_le (l : List T) (x : T) :
    x ∈ List.insertionSort (fun a b => a ≤ b) l ↔ x ∈ l :=
  (List.perm_insertionSort (fun a b => a ≤ b) l).mem_iff

end DomainLemmas

section ClaimC4

/-- Claim C4: for all four domain implementations, remove and restrict_to
are pure functions of the receiver (in this embedding every operation
returns a new value and the receiver is untouched by construction), the
result is no larger than the receiver, and membership in the result is
membership in the receiver minus the removed value, respectively
intersected with the keep collection. The sorted-vector operations assume
the representation invariant (strictly ascending carrier) that every
constructor establishes. -/
theorem domain_remove_restrict_spec [LinearOrder T]
    (d : List T) (v : T) (S : List T) :
    ((HashSetDomain.remove d v).length ≤ d.length ∧
      ∀ x, x ∈ HashSetDomain.remove d v ↔ x ∈ d ∧ x ≠ v) ∧
    ((HashSetDomain.restrict_to d S).length ≤ d.length ∧
      ∀ x, x ∈ HashSetDomain.restrict_to d S ↔ x ∈ d ∧ x ∈ S) ∧
    ((BTreeSetDomain.remove d v).length ≤ d.length ∧
      ∀ x, x ∈ BTreeSetDomain.remove d v ↔ x ∈ d ∧ x ≠ v) ∧
    ((BTreeSetDomain.restrict_to d S).length ≤ d.length ∧
      ∀ x, x ∈ BTreeSetDomain.restrict_to d S ↔ x ∈ d ∧ x ∈ S) ∧
    ((VecDomain.remove d v).length ≤ d.length ∧
      ∀ x, x ∈ VecDomain.remove d v ↔ x ∈ d ∧ x ≠ v) ∧
    ((VecDomain.restrict_to d S).length ≤ d.length ∧
      ∀ x, x ∈ VecDomain.restrict_to d S ↔ x ∈ d ∧ x ∈ S) ∧
    (d.Sorted (· < ·) →
      ((SortedVecDomain.remove d v).length ≤ d.length ∧
        ∀ x, x ∈ SortedVecDomain.remove d v ↔ x ∈ d ∧ x ≠ v) ∧
      ((SortedVecDomain.restrict_to d S).length ≤ d.length ∧
        ∀ x, x ∈ SortedVecDomain.restrict_to d S ↔ x ∈ d ∧ x ∈ S)) := by
  have hfilter_ne : ∀ (l : List T),
      ((l.filter (fun x => decide (x ≠ v))).length ≤ l.length ∧
        ∀ x, x ∈ l.filter (fun x => decide (x ≠ v)) ↔ x ∈ l ∧ x ≠ v) := by
    intro l
    refine ⟨List.length_filter_le _ _, fun x => ?_⟩
    rw [List.mem_filter]
    simp
  have hfilter_mem : ∀ (l : List T),
      ((l.filter (fun x => decide (x ∈ S))).length ≤ l.length ∧
        ∀ x, x ∈ l.filter (fun x => decide (x ∈ S)) ↔ x ∈ l ∧ x ∈ S) := by
    intro l
    refine ⟨List.length_filter_le _ _, fun x => ?_⟩
    rw [List.mem_filter]
    simp
  refine ⟨hfilter_ne d, hfilter_mem d, hfilter_ne d, hfilter_mem d,
    hfilter_ne d, hfilter_mem d, fun hsorted => ⟨⟨?_, ?_⟩, ?_, ?_⟩⟩
  · exact List.Sublist.length_le (List.erase_sublist v d)
  · intro x
    show x ∈ d.erase v ↔ x ∈ d ∧ x ≠ v
    rw [(List.Sorted.nodup hsorted).mem_erase_iff]
    exact ⟨fun ⟨h1, h2⟩ => ⟨h2, h1⟩, fun ⟨h1, h2⟩ => ⟨h2, h1⟩⟩
  · exact List.Sublist.length_le
      (SortedVecDomain.merge_sublist d (List.insertionSort _ S))
  · intro x
    rw [SortedVecDomain.restrict_to,
      SortedVecDomain.mem_merge d _ hsorted (sorted_le_insertionSort S),
      mem_insertionSort_le]

/-- Witness for C4 at a concrete sorted domain, removed value and keep
collection. -/
theorem domain_remove_restrict_spec_witness :
    (SortedVecDomain.remove [1, 2, 3] 2).length ≤ ([1, 2, 3] : List Nat).length ∧
    ((2 : Nat) ∈ SortedVecDomain.restrict_to [1, 2, 3] [0, 2] ↔
      (2 : Nat) ∈ ([1, 2, 3] : List Nat) ∧ (2 : Nat) ∈ ([0, 2] : List Nat)) := by
  have h := (domain_remove_restrict_spec ([1, 2, 3] : List Nat) 2
    ([0, 2] : List Nat)).2.2.2.2.2.2 (by decide)
  exact ⟨h.1.1, h.2.2 2⟩

end ClaimC4

section ClaimC5

/-- Counterexample to claim C5 as stated: VecDomain::new does not
deduplicate, so the constructed domain built from a two-element repeated
collection reports a duplicated values() sequence. -/
theorem vecDomain_new_keeps_duplicates :
    VecDomain.new ([0, 0] : List Nat) = [0, 0] ∧
    ¬ (VecDomain.new ([0, 0] : List Nat)).Nodup := by
  refine ⟨rfl, by decide⟩

/-- Claim C5 (amended): the HashSetDomain, BTreeSetDomain and
SortedVecDomain constructors always produce duplicate-free values;
VecDomain::new returns its input unchanged (so it preserves, but does not
establish, the no-duplicates invariant); and for all four implementations
remove and restrict_to preserve the no-duplicates invariant. -/
theorem domain_nodup_invariant [LinearOrder T] (l : List T) :
    (HashSetDomain.new l).Nodup ∧
    (BTreeSetDomain.new l).Nodup ∧
    (SortedVecDomain.new l).Nodup ∧
    VecDomain.new l = l ∧
    (∀ (d : List T) (v : T) (S : List T), d.Nodup →
      (HashSetDomain.remove d v).Nodup ∧
      (HashSetDomain.restrict_to d S).Nodup ∧
      (BTreeSetDomain.remove d v).Nodup ∧
      (BTreeSetDomain.restrict_to d S).Nodup ∧
      (VecDomain.remove d v).Nodup ∧
      (VecDomain.restrict_to d S).Nodup ∧
      (SortedVecDomain.remove d v).Nodup ∧
      (SortedVecDomain.restrict_to d S).Nodup) := by
  refine ⟨List.nodup_dedup l,
    (List.perm_insertionSort _ l.dedup).nodup_iff.mpr (List.nodup_dedup l),
    List.nodup_dedup _, rfl, ?_⟩
  intro d v S hd
  exact ⟨hd.filter _, hd.filter _, hd.filter _, hd.filter _, hd.filter _,
    hd.filter _, hd.erase v,
    (SortedVecDomain.merge_sublist d _).nodup hd⟩

/-- Witness for C5 at a concrete duplicated input collection and a
concrete duplicate-free domain. -/
theorem domain_nodup_invariant_witness :
    (HashSetDomain.new ([3, 3, 1] : List Nat)).Nodup ∧
    (SortedVecDomain.restrict_to ([1, 2] : List Nat) [2, 2]).Nodup := by
  refine ⟨(domain_nodup_invariant ([3, 3, 1] : List Nat)).1, ?_⟩
  exact ((domain_nodup_invariant ([3, 3, 1] : List Nat)).2.2.2.2
    [1, 2] 0 [2, 2] (by decide)).2.2.2.2.2.2.2

end ClaimC5

/-!
The generic solvers. Solver-side domains are the value lists reported by
values(); restrict_to is modelled, as in VecDomain, by filtering on
membership in the keep collection. Search procedures carry explicit fuel
and return none on exhaustion.
-/

/-- The type of variable-selection strategies. -/
def Sel (T : Type) : Type := Assignment T → Csp T → Option String

/-- The type of value-ordering strategies. -/
def Ord (T : Type) : Type := String → List T → Assignment T → Csp T → List T

/-- first_unassigned: the first registered variable not yet assigned. -/
def first_unassigned (A : Assignment T) (csp : Csp T) : Option String :=
  csp.getVariables.find? (fun v => ! A.isAssigned v)

/-- domain_order: the domain values unchanged. -/
def domain_order (_v : String) (d : List T) (_A : Assignment T)
    (_csp : Csp T) : List T := d

/-- The value loop shared by backtrack and backtrack_limited: try each
value, keep consistent extensions, recurse through the given continuation,
propagate the stop signal, and unassign before the next value. -/
def btVals (csp : Csp T)
    (recur : Assignment T → List (Assignment T) →
      Option (Assignment T × List (Assignment T) × Bool))
    (v : String) :
    List T → Assignment T → List (Assignment T) →
      Option (Assignment T × List (Assignment T) × Bool)
  | [], A, sols => some (A, sols, false)
  | x :: xs, A, sols =>
    let A1 := A.assign v x
    if csp.isConsistent A1 then
      match recur A1 sols with
      | none => none
      | some (A2, sols2, true) => some (A2, sols2, true)
      | some (A2, sols2, false) => btVals csp recur v xs (A2.unassign v) sols2
    else btVals csp recur v xs (A1.unassign v) sols

/-- BacktrackingSolver::backtrack. A complete assignment is recorded and
search stops when not collecting all solutions; otherwise the selection
strategy picks a variable and the value loop runs over the ordered domain. -/
def backtrack (csp : Csp T) (sel : Sel T) (ord : Ord T) (collectAll : Bool) :
    Nat → Assignment T → List (Assignment T) →
      Option (Assignment T × List (Assignment T) × Bool)
  | 0, _, _ => none
  | fuel + 1, A, sols =>
    if A.size = csp.numVariables then some (A, sols ++ [A], !collectAll)
    else
      match sel A csp with
      | none => some (A, sols, false)
      | some v =>
        match csp.getDomain v with
        | none => some (A, sols, false)
        | some d =>
          btVals csp (fun A2 s2 => backtrack csp sel ord collectAll fuel A2 s2)
            v (ord v d A csp) A sols

/-- BacktrackingSolver::backtrack_limited: stop as soon as the solution
list reaches the limit. -/
def backtrack_limited (csp : Csp T) (sel : Sel T) (ord : Ord T)
    (limit : Nat) :
    Nat → Assignment T → List (Assignment T) →
      Option (Assignment T × List (Assignment T) × Bool)
  | 0, _, _ => none
  | fuel + 1, A, sols =>
    if limit ≤ sols.length then some (A, sols, true)
    else if A.size = csp.numVariables then
      some (A, sols ++ [A], decide (limit ≤ sols.length + 1))
    else
      match sel A csp with
      | none => some (A, sols, false)
      | some v =>
        match csp.getDomain v with
        | none => some (A, sols, false)
        | some d =>
          btVals csp
            (fun A2 s2 => backtrack_limited csp sel ord limit fuel A2 s2)
            v (ord v d A csp) A sols

/-- BacktrackingSolver::find_solution: first recorded solution, if any. -/
def find_solution (csp : Csp T) (sel : Sel T) (ord : Ord T) (fuel : Nat) :
    Option (Option (Assignment T)) :=
  (backtrack csp sel ord false fuel Assignment.empty []).map
    (fun r => r.2.1.head?)

/-- BacktrackingSolver::find_all_solutions. -/
def find_all_solutions (csp : Csp T) (sel : Sel T) (ord : Ord T)
    (fuel : Nat) : Option (List (Assignment T)) :=
  (backtrack csp sel ord true fuel Assignment.empty []).map (fun r => r.2.1)

/-- BacktrackingSolver::find_limited_solutions: an explicit zero limit
returns the empty list before any search. -/
def find_limited_solutions (csp : Csp T) (sel : Sel T) (ord : Ord T)
    (limit : Nat) (fuel : Nat) : Option (List (Assignment T)) :=
  if limit = 0 then some []
  else
    (backtrack_limited csp sel ord limit fuel Assignment.empty []).map
      (fun r => r.2.1)

/-- BacktrackingSolver::find_all_backtracking. -/
def find_all_backtracking (csp : Csp T) (fuel : Nat) :
    Option (List (Assignment T)) :=
  find_all_solutions csp first_unassigned domain_order fuel

/-!
Forward checking. The per-branch domain map is an association list; the
hash-map insert replaces the value of an existing key in place.
-/

/-- Domain-map lookup, defaulting to the empty domain; the code unwraps,
which cannot fail for the keys the solvers use. -/
def lookupD : List (String × List T) → String → List T
  | [], _ => []
  | (u, d) :: rest, v => if u = v then d else lookupD rest v

/-- Domain-map insert: replace in place or append. -/
def insertD : List (String × List T) → String → List T → List (String × List T)
  | [], v, d => [(v, d)]
  | (u, d0) :: rest, v, d =>
    if u = v then (u, d) :: rest else (u, d0) :: insertD rest v d

/-- min_by_key of the Rust iterators: first element attaining the minimal
key. -/
def minByFirst (f : α → Nat) : List α → Option α
  | [] => none
  | a :: l =>
    match minByFirst f l with
    | none => some a
    | some b => if f b < f a then some b else some a

/-- ForwardCheckingSolver::select_variable (also used by the
arc-consistency search): the unassigned variable with the smallest current
domain. -/
def fcSelect (A : Assignment T) (doms : List (String × List T)) :
    Option String :=
  minByFirst (fun v => (lookupD doms v).length)
    ((doms.map Prod.fst).filter (fun v => ! A.isAssigned v))

/-- Inner loop of ForwardCheckingSolver::forward_check over one
constraint's scope: filter each unassigned neighbour's domain to the
values compatible with the constraint, failing on a wipeout. -/
def fcCheckConstraint (csp : Csp T) (v : String) (A : Assignment T)
    (c : Constraint T) :
    List String → List (String × List T) → Option (List (String × List T))
  | [], doms => some doms
  | u :: rest, doms =>
    if A.isAssigned u || u = v then fcCheckConstraint csp v A c rest doms
    else
      let cur := lookupD doms u
      let valid := cur.filter (fun y => c.isSatisfied (A.assign u y))
      if valid.isEmpty then none
      else
        fcCheckConstraint csp v A c rest
          (insertD doms u (cur.filter (fun y => decide (y ∈ valid))))

/-- ForwardCheckingSolver::forward_check over every constraint involving
the just-assigned variable. -/
def forward_check (csp : Csp T) (v : String) (A : Assignment T) :
    List (Constraint T) → List (String × List T) →
      Option (List (String × List T))
  | [], doms => some doms
  | c :: cs, doms =>
    match fcCheckConstraint csp v A c c.scope doms with
    | none => none
    | some doms2 => forward_check csp v A cs doms2

/-- Value loop of ForwardCheckingSolver::backtrack_fc: on a consistent
extension run forward checking; on wipeout or a failed recursion restore
the snapshotted domains and try the next value. -/
def fcVals (csp : Csp T)
    (recur : Assignment T → List (String × List T) →
      Option (Option (Assignment T)))
    (v : String) (doms : List (String × List T)) :
    List T → Assignment T → Option (Option (Assignment T))
  | [], _ => some none
  | x :: xs, A =>
    let A1 := A.assign v x
    if csp.isConsistent A1 then
      match forward_check csp v A1 (csp.constraintsFor v) doms with
      | none => fcVals csp recur v doms xs (A1.unassign v)
      | some doms2 =>
        match recur A1 doms2 with
        | none => none
        | some (some Af) => some (some Af)
        | some none => fcVals csp recur v doms xs (A1.unassign v)
    else fcVals csp recur v doms xs (A1.unassign v)

/-- ForwardCheckingSolver::backtrack_fc. -/
def fc_backtrack (csp : Csp T) :
    Nat → Assignment T → List (String × List T) →
      Option (Option (Assignment T))
  | 0, _, _ => none
  | fuel + 1, A, doms =>
    if A.size = csp.numVariables then some (some A)
    else
      match fcSelect A doms with
      | none => some none
      | some v =>
        fcVals csp (fun A2 d2 => fc_backtrack csp fuel A2 d2) v doms
          (lookupD doms v) A

/-- ForwardCheckingSolver::solve: search from the cloned initial
domains. -/
def ForwardCheckingSolver.solve (csp : Csp T) (fuel : Nat) :
    Option (Option (Assignment T)) :=
  fc_backtrack csp fuel Assignment.empty csp.doms

/-!
The arc-consistency solver: AC-3 preprocessing and maintenance during
search.
-/

/-- A directed arc of the AC-3 worklist. -/
def Arc (T : Type) : Type := String × String × Constraint T

/-- Whether a value of xi has a supporting value in xj's current domain
under the constraint: the inner loop of ArcConsistencySolver::revise. -/
def reviseSupport (doms : List (String × List T)) (xi xj : String)
    (c : Constraint T) : T → Bool :=
  fun a => (lookupD doms xj).any
    (fun b => c.isSatisfied ((Assignment.empty.assign xi a).assign xj b))

/-- ArcConsistencySolver::revise: keep each value of the first variable
that has a supporting value in the second variable's domain; report
whether anything was dropped and the updated domain map (the revised
domain is the old one restricted to the collected valid values). -/
def revise (doms : List (String × List T)) (xi xj : String)
    (c : Constraint T) : Bool × List (String × List T) :=
  let di := lookupD doms xi
  let valid := di.filter (reviseSupport doms xi xj c)
  if di.all (reviseSupport doms xi xj c) then (false, doms)
  else (true, insertD doms xi (di.filter (fun y => decide (y ∈ valid))))

/-- The arcs enqueued after a successful revision of xi against xj: one
arc towards xi per other scope member of each constraint involving xi. -/
def newArcs (csp : Csp T) (xi xj : String) : List (Arc T) :=
  (csp.constraintsFor xi).flatMap (fun c =>
    (c.scope.filter (fun u => decide (u ≠ xi) && decide (u ≠ xj))).map
      (fun u => (u, xi, c)))

/-- The initial worklist: both directed arcs of every binary constraint. -/
def binaryArcs (csp : Csp T) : List (Arc T) :=
  csp.cons.flatMap (fun c =>
    match c.scope with
    | [a, b] => [(a, b, c), (b, a, c)]
    | _ => [])

/-- ArcConsistencySolver::ac3: process the worklist, aborting with failure
when a domain is wiped out. -/
def ac3 (csp : Csp T) :
    Nat → List (Arc T) → List (String × List T) →
      Option (Bool × List (String × List T))
  | 0, _, _ => none
  | _ + 1, [], doms => some (true, doms)
  | fuel + 1, (xi, xj, c) :: rest, doms =>
    let r := revise doms xi xj c
    if r.1 then
      if (lookupD r.2 xi).isEmpty then some (false, r.2)
      else ac3 csp fuel (rest ++ newArcs csp xi xj) r.2
    else ac3 csp fuel rest doms

/-- ArcConsistencySolver::maintain_arc_consistency: pin the assigned
variable's domain to the single value and rerun AC-3 over all arcs. -/
def maintain_arc_consistency (csp : Csp T) (fuel : Nat) (v : String) (x : T)
    (doms : List (String × List T)) :
    Option (Bool × List (String × List T)) :=
  ac3 csp fuel (binaryArcs csp)
    (insertD doms v ((lookupD doms v).filter (fun y => decide (y ∈ [x]))))

/-- Value loop of ArcConsistencySolver::backtrack_ac. -/
def acVals (csp : Csp T)
    (recur : Assignment T → List (String × List T) →
      Option (Option (Assignment T)))
    (macFuel : Nat) (v : String) (doms : List (String × List T)) :
    List T → Assignment T → Option (Option (Assignment T))
  | [], _ => some none
  | x :: xs, A =>
    let A1 := A.assign v x
    if csp.isConsistent A1 then
      match maintain_arc_consistency csp macFuel v x doms with
      | none => none
      | some (false, _) => acVals csp recur macFuel v doms xs (A1.unassign v)
      | some (true, doms2) =>
        match recur A1 doms2 with
        | none => none
        | some (some Af) => some (some Af)
        | some none => acVals csp recur macFuel v doms xs (A1.unassign v)
    else acVals csp recur macFuel v doms xs (A1.unassign v)

/-- ArcConsistencySolver::backtrack_ac. -/
def ac_backtrack (csp : Csp T) :
    Nat → Assignment T → List (String × List T) →
      Option (Option (Assignment T))
  | 0, _, _ => none
  | fuel + 1, A, doms =>
    if A.size = csp.numVariables then some (some A)
    else
      match fcSelect A doms with
      | none => some none
      | some v =>
        acVals csp (fun A2 d2 => ac_backtrack csp fuel A2 d2) fuel v doms
          (lookupD doms v) A

/-- ArcConsistencySolver::solve: AC-3 preprocessing over the cloned
domains, then arc-consistency-maintaining search. -/
def ArcConsistencySolver.solve (csp : Csp T) (fuel : Nat) :
    Option (Option (Assignment T)) :=
  match ac3 csp fuel (binaryArcs csp) csp.doms with
  | none => none
  | some (false, _) => some none
  | some (true, doms2) => ac_backtrack csp fuel Assignment.empty doms2

section ClaimC1

/-- On a Csp whose constraints all have nonempty scopes, the empty
assignment is consistent: some scope variable of each constraint is
unassigned. -/
theorem isConsistent_empty (csp : Csp T)
    (hne : ∀ c ∈ csp.cons, c.scope ≠ []) :
    csp.isConsistent Assignment.empty = true := by
  unfold Csp.isConsistent
  rw [List.all_eq_true]
  intro c hc
  rcases h : c.scope with _ | ⟨w, ws⟩
  · exact absurd h (hne c hc)
  · exact (constraint_isSatisfied_spec c _).1 ⟨w, by rw [h]; simp, rfl⟩

theorem mem_of_head?_eq (l : List α) (a : α) (h : l.head? = some a) :
    a ∈ l := by
  cases l with
  | nil => cases h
  | cons b t =>
    simp only [List.head?] at h
    injection h with h
    subst h
    exact List.mem_cons_self _ _

theorem btVals_sound (csp : Csp T)
    (recur : Assignment T → List (Assignment T) →
      Option (Assignment T × List (Assignment T) × Bool))
    (v : String)
    (hrec : ∀ A s r, csp.isConsistent A = true →
      (∀ t ∈ s, csp.isSolution t = true) → recur A s = some r →
      ∀ t ∈ r.2.1, csp.isSolution t = true) :
    ∀ (vals : List T) (A : Assignment T) (sols : List (Assignment T)) r,
      (∀ t ∈ sols, csp.isSolution t = true) →
      btVals csp recur v vals A sols = some r →
      ∀ t ∈ r.2.1, csp.isSolution t = true := by
  intro vals
  induction vals with
  | nil =>
    intro A sols r hsols heq
    simp only [btVals] at heq
    injection heq with heq
    subst heq
    exact hsols
  | cons x xs ih =>
    intro A sols r hsols heq
    simp only [btVals] at heq
    cases hc : csp.isConsistent (A.assign v x) with
    | false =>
      rw [hc] at heq
      simp only [Bool.false_eq_true, if_false] at heq
      exact ih _ _ _ hsols heq
    | true =>
      rw [hc] at heq
      simp only [if_true] at heq
      cases hrecv : recur (A.assign v x) sols with
      | none =>
        rw [hrecv] at heq
        cases heq
      | some p =>
        obtain ⟨A2, sols2, b⟩ := p
        rw [hrecv] at heq
        have hs2 : ∀ t ∈ sols2, csp.isSolution t = true :=
          hrec _ _ _ hc hsols hrecv
        cases b with
        | true =>
          injection heq with heq
          subst heq
          exact hs2
        | false =>
          exact ih _ _ _ hs2 heq

theorem backtrack_sound (csp : Csp T) (sel : Sel T) (ord : Ord T)
    (ca : Bool) :
    ∀ (fuel : Nat) (A : Assignment T) (sols : List (Assignment T)) r,
      (A.size = csp.numVariables → csp.isConsistent A = true) →
      (∀ t ∈ sols, csp.isSolution t = true) →
      backtrack csp sel ord ca fuel A sols = some r →
      ∀ t ∈ r.2.1, csp.isSolution t = true := by
  intro fuel
  induction fuel with
  | zero =>
    intro A sols r _ _ heq
    simp only [backtrack] at heq
    cases heq
  | succ fuel ih =>
    intro A sols r hA hsols heq
    simp only [backtrack] at heq
    by_cases hcomp : A.size = csp.numVariables
    · rw [if_pos hcomp] at heq
      injection heq with heq
      subst heq
      intro t ht
      rcases List.mem_append.mp ht with h | h
      · exact hsols t h
      · rw [List.mem_singleton] at h
        subst h
        unfold Csp.isSolution
        rw [Bool.and_eq_true]
        exact ⟨by simp [hcomp], hA hcomp⟩
    · rw [if_neg hcomp] at heq
      cases hsel : sel A csp with
      | none =>
        rw [hsel] at heq
        injection heq with heq
        subst heq
        exact hsols
      | some v =>
        simp only [hsel] at heq
        cases hdom : csp.getDomain v with
        | none =>
          simp only [hdom] at heq
          injection heq with heq
          subst heq
          exact hsols
        | some d =>
          simp only [hdom] at heq
          exact btVals_sound csp _ v
            (fun A' s' r' hc hs hr => ih A' s' r' (fun _ => hc) hs hr)
            _ _ _ _ hsols heq

theorem backtrack_limited_sound (csp : Csp T) (sel : Sel T) (ord : Ord T)
    (limit : Nat) :
    ∀ (fuel : Nat) (A : Assignment T) (sols : List (Assignment T)) r,
      (A.size = csp.numVariables → csp.isConsistent A = true) →
      (∀ t ∈ sols, csp.isSolution t = true) →
      backtrack_limited csp sel ord limit fuel A sols = some r →
      ∀ t ∈ r.2.1, csp.isSolution t = true := by
  intro fuel
  induction fuel with
  | zero =>
    intro A sols r _ _ heq
    simp only [backtrack_limited] at heq
    cases heq
  | succ fuel ih =>
    intro A sols r hA hsols heq
    simp only [backtrack_limited] at heq
    by_cases hfull : limit ≤ sols.length
    · rw [if_pos hfull] at heq
      injection heq with heq
      subst heq
      exact hsols
    · rw [if_neg hfull] at heq
      by_cases hcomp : A.size = csp.numVariables
      · rw [if_pos hcomp] at heq
        injection heq with heq
        subst heq
        intro t ht
        rcases List.mem_append.mp ht with h | h
        · exact hsols t h
        · rw [List.mem_singleton] at h
          subst h
          unfold Csp.isSolution
          rw [Bool.and_eq_true]
          exact ⟨by simp [hcomp], hA hcomp⟩
      · rw [if_neg hcomp] at heq
        cases hsel : sel A csp with
        | none =>
          rw [hsel] at heq
          injection heq with heq
          subst heq
          exact hsols
        | some v =>
          simp only [hsel] at heq
          cases hdom : csp.getDomain v with
          | none =>
            simp only [hdom] at heq
            injection heq with heq
            subst heq
            exact hsols
          | some d =>
            simp only [hdom] at heq
            exact btVals_sound csp _ v
              (fun A' s' r' hc hs hr => ih A' s' r' (fun _ => hc) hs hr)
              _ _ _ _ hsols heq

theorem fcVals_sound (csp : Csp T)
    (recur : Assignment T → List (String × List T) →
      Option (Option (Assignment T)))
    (v : String) (doms : List (String × List T))
    (hrec : ∀ A d2 Af, csp.isConsistent A = true →
      recur A d2 = some (some Af) → csp.isSolution Af = true) :
    ∀ (vals : List T) (A : Assignment T) (Af : Assignment T),
      fcVals csp recur v doms vals A = some (some Af) →
      csp.isSolution Af = true := by
  intro vals
  induction vals with
  | nil =>
    intro A Af heq
    simp only [fcVals] at heq
    cases heq
  | cons x xs ih =>
    intro A Af heq
    simp only [fcVals] at heq
    cases hc : csp.isConsistent (A.assign v x) with
    | false =>
      rw [hc] at heq
      simp only [Bool.false_eq_true, if_false] at heq
      exact ih _ _ heq
    | true =>
      rw [hc] at heq
      simp only [if_true] at heq
      cases hfc : forward_check csp v (A.assign v x) (csp.constraintsFor v)
          doms with
      | none =>
        rw [hfc] at heq
        exact ih _ _ heq
      | some doms2 =>
        simp only [hfc] at heq
        cases hrecv : recur (A.assign v x) doms2 with
        | none =>
          simp only [hrecv] at heq
          cases heq
        | some o =>
          simp only [hrecv] at heq
          cases o with
          | none => exact ih _ _ heq
          | some Af2 =>
            injection heq with heq
            injection heq with heq
            subst heq
            exact hrec _ _ _ hc hrecv

theorem fc_backtrack_sound (csp : Csp T) :
    ∀ (fuel : Nat) (A : Assignment T) (doms : List (String × List T))
      (Af : Assignment T),
      (A.size = csp.numVariables → csp.isConsistent A = true) →
      fc_backtrack csp fuel A doms = some (some Af) →
      csp.isSolution Af = true := by
  intro fuel
  induction fuel with
  | zero =>
    intro A doms Af _ heq
    simp only [fc_backtrack] at heq
    cases heq
  | succ fuel ih =>
    intro A doms Af hA heq
    simp only [fc_backtrack] at heq
    by_cases hcomp : A.size = csp.numVariables
    · rw [if_pos hcomp] at heq
      injection heq with heq
      injection heq with heq
      subst heq
      unfold Csp.isSolution
      rw [Bool.and_eq_true]
      exact ⟨by simp [hcomp], hA hcomp⟩
    · rw [if_neg hcomp] at heq
      cases hsel : fcSelect A doms with
      | none =>
        rw [hsel] at heq
        cases heq
      | some v =>
        rw [hsel] at heq
        exact fcVals_sound csp _ v doms
          (fun A' d' Af' hc hr => ih A' d' Af' (fun _ => hc) hr) _ _ _ heq

theorem acVals_sound (csp : Csp T)
    (recur : Assignment T → List (String × List T) →
      Option (Option (Assignment T)))
    (macFuel : Nat) (v : String) (doms : List (String × List T))
    (hrec : ∀ A d2 Af, csp.isConsistent A = true →
      recur A d2 = some (some Af) → csp.isSolution Af = true) :
    ∀ (vals : List T) (A : Assignment T) (Af : Assignment T),
      acVals csp recur macFuel v doms vals A = some (some Af) →
      csp.isSolution Af = true := by
  intro vals
  induction vals with
  | nil =>
    intro A Af heq
    simp only [acVals] at heq
    cases heq
  | cons x xs ih =>
    intro A Af heq
    simp only [acVals] at heq
    cases hc : csp.isConsistent (A.assign v x) with
    | false =>
      rw [hc] at heq
      simp only [Bool.false_eq_true, if_false] at heq
      exact ih _ _ heq
    | true =>
      rw [hc] at heq
      simp only [if_true] at heq
      cases hmac : maintain_arc_consistency csp macFuel v x doms with
      | none =>
        rw [hmac] at heq
        cases heq
      | some p =>
        rw [hmac] at heq
        obtain ⟨ok, doms2⟩ := p
        cases ok with
        | false => exact ih _ _ heq
        | true =>
          simp only [] at heq
          cases hrecv : recur (A.assign v x) doms2 with
          | none =>
            simp only [hrecv] at heq
            cases heq
          | some o =>
            simp only [hrecv] at heq
            cases o with
            | none => exact ih _ _ heq
            | some Af2 =>
              injection heq with heq
              injection heq with heq
              subst heq
              exact hrec _ _ _ hc hrecv

theorem ac_backtrack_sound (csp : Csp T) :
    ∀ (fuel : Nat) (A : Assignment T) (doms : List (String × List T))
      (Af : Assignment T),
      (A.size = csp.numVariables → csp.isConsistent A = true) →
      ac_backtrack csp fuel A doms = some (some Af) →
      csp.isSolution Af = true := by
  intro fuel
  induction fuel with
  | zero =>
    intro A doms Af _ heq
    simp only [ac_backtrack] at heq
    cases heq
  | succ fuel ih =>
    intro A doms Af hA heq
    simp only [ac_backtrack] at heq
    by_cases hcomp : A.size = csp.numVariables
    · rw [if_pos hcomp] at heq
      injection heq with heq
      injection heq with heq
      subst heq
      unfold Csp.isSolution
      rw [Bool.and_eq_true]
      exact ⟨by simp [hcomp], hA hcomp⟩
    · rw [if_neg hcomp] at heq
      cases hsel : fcSelect A doms with
      | none =>
        rw [hsel] at heq
        cases heq
      | some v =>
        rw [hsel] at heq
        exact acVals_sound csp _ fuel v doms
          (fun A' d' Af' hc hr => ih A' d' Af' (fun _ => hc) hr) _ _ _ heq

/-- Claim C1: on a Csp whose constraints all have nonempty scopes (the
data-model invariant; an empty scope is declared a programmer bug), every
assignment returned by any solver entry point, under every selection and
ordering strategy and every fuel, satisfies is_solution. -/
theorem solvers_sound (csp : Csp T)
    (hne : ∀ c ∈ csp.cons, c.scope ≠ []) :
    (∀ (sel : Sel T) (ord : Ord T) (fuel : Nat) S,
      find_all_solutions csp sel ord fuel = some S →
      ∀ A ∈ S, csp.isSolution A = true) ∧
    (∀ (sel : Sel T) (ord : Ord T) (fuel : Nat) A,
      find_solution csp sel ord fuel = some (some A) →
      csp.isSolution A = true) ∧
    (∀ (sel : Sel T) (ord : Ord T) (limit fuel : Nat) S,
      find_limited_solutions csp sel ord limit fuel = some S →
      ∀ A ∈ S, csp.isSolution A = true) ∧
    (∀ (fuel : Nat) A,
      ForwardCheckingSolver.solve csp fuel = some (some A) →
      csp.isSolution A = true) ∧
    (∀ (fuel : Nat) A,
      ArcConsistencySolver.solve csp fuel = some (some A) →
      csp.isSolution A = true) := by
  have hempty : (Assignment.empty : Assignment T).size = csp.numVariables →
      csp.isConsistent Assignment.empty = true :=
    fun _ => isConsistent_empty csp hne
  refine ⟨?_, ?_, ?_, ?_, ?_⟩
  · intro sel ord fuel S heq A hA
    unfold find_all_solutions at heq
    cases hbt : backtrack csp sel ord true fuel Assignment.empty [] with
    | none => rw [hbt] at heq; cases heq
    | some r =>
      rw [hbt] at heq
      injection heq with heq
      subst heq
      exact backtrack_sound csp sel ord true fuel _ _ r hempty
        (by intro t ht; cases ht) hbt A hA
  · intro sel ord fuel A heq
    unfold find_solution at heq
    cases hbt : backtrack csp sel ord false fuel Assignment.empty [] with
    | none => rw [hbt] at heq; cases heq
    | some r =>
      rw [hbt] at heq
      injection heq with heq
      have hmem : A ∈ r.2.1 := mem_of_head?_eq _ _ heq
      exact backtrack_sound csp sel ord false fuel _ _ r hempty
        (by intro t ht; cases ht) hbt A hmem
  · intro sel ord limit fuel S heq A hA
    unfold find_limited_solutions at heq
    by_cases hl : limit = 0
    · rw [if_pos hl] at heq
      injection heq with heq
      subst heq
      cases hA
    · rw [if_neg hl] at heq
      cases hbt : backtrack_limited csp sel ord limit fuel
          Assignment.empty [] with
      | none => rw [hbt] at heq; cases heq
      | some r =>
        rw [hbt] at heq
        injection heq with heq
        subst heq
        exact backtrack_limited_sound csp sel ord limit fuel _ _ r hempty
          (by intro t ht; cases ht) hbt A hA
  · intro fuel A heq
    exact fc_backtrack_sound csp fuel _ _ A hempty heq
  · intro fuel A heq
    unfold ArcConsistencySolver.solve at heq
    cases hac : ac3 csp fuel (binaryArcs csp) csp.doms with
    | none => rw [hac] at heq; cases heq
    | some p =>
      rw [hac] at heq
      obtain ⟨ok, doms2⟩ := p
      cases ok with
      | false => cases heq
      | true => exact ac_backtrack_sound csp fuel _ _ A hempty heq

/-- A concrete Csp used by the C1 witness: one variable a with domain 0, 1
and one constraint forcing a to be 1. -/
def c1csp : Csp Nat :=
  ⟨[("a", [0, 1])],
    [⟨"c", ["a"], fun A => decide (Assignment.get A "a" = some 1)⟩]⟩

/-- Witness for C1: on the concrete Csp, basic backtracking returns the
assignment a to 1 and the soundness theorem certifies it as a solution. -/
theorem solvers_sound_witness :
    find_solution c1csp first_unassigned domain_order 3 =
      some (some [("a", 1)]) ∧
    c1csp.isSolution [("a", 1)] = true := by
  have hrun : find_solution c1csp first_unassigned domain_order 3 =
      some (some [("a", 1)]) := by decide
  refine ⟨hrun, ?_⟩
  exact (solvers_sound c1csp
      (fun c hc => by
        rcases List.mem_singleton.mp hc with rfl
        exact List.cons_ne_nil _ _)).2.1
    first_unassigned domain_order 3 [("a", 1)] hrun

end ClaimC1

section AssignLemmas

theorem Assignment.get_append_some (A B : List (String × T)) (u : String)
    (y : T) (h : Assignment.get A u = some y) :
    Assignment.get (A ++ B) u = some y := by
  induction A with
  | nil => cases h
  | cons p rest ih =>
    obtain ⟨w, z⟩ := p
    simp only [Assignment.get] at h
    simp only [List.cons_append, Assignment.get]
    by_cases hw : w = u
    · rw [if_pos hw] at h ⊢
      exact h
    · rw [if_neg hw] at h ⊢
      exact ih h

theorem Assignment.get_append_none (A B : List (String × T)) (u : String)
    (h : Assignment.get A u = none) :
    Assignment.get (A ++ B) u = Assignment.get B u := by
  induction A with
  | nil => rfl
  | cons p rest ih =>
    obtain ⟨w, z⟩ := p
    simp only [Assignment.get] at h
    simp only [List.cons_append, Assignment.get]
    by_cases hw : w = u
    · rw [if_pos hw] at h
      cases h
    · rw [if_neg hw] at h ⊢
      exact ih h

theorem Assignment.get_map_replace (A : List (String × T)) (v u : String)
    (x : T) :
    Assignment.get (A.map (fun p => if p.1 = v then (v, x) else p)) u =
      if u = v then Option.map (fun _ => x) (Assignment.get A v)
      else Assignment.get A u := by
  induction A with
  | nil =>
    by_cases h : u = v <;> simp [Assignment.get, h]
  | cons p rest ih =>
    obtain ⟨w, y⟩ := p
    simp only [List.map_cons]
    by_cases hp : w = v
    · rw [if_pos hp]
      subst hp
      by_cases hu : u = w
      · subst hu
        simp [Assignment.get]
      · have hu2 : ¬ w = u := fun hh => hu hh.symm
        simp [Assignment.get, hu, hu2, ih]
    · rw [if_neg hp]
      by_cases hu : w = u
      · subst hu
        simp [Assignment.get, hp, fun hh : w = v => hp hh]
      · simp [Assignment.get, hu, hp, ih]

theorem Assignment.get_assign (A : Assignment T) (v : String) (x : T)
    (u : String) :
    Assignment.get (A.assign v x) u =
      if u = v then some x else Assignment.get A u := by
  unfold Assignment.assign
  by_cases ha : A.isAssigned v = true
  · rw [if_pos ha, Assignment.get_map_replace]
    by_cases hu : u = v
    · subst hu
      rw [if_pos rfl, if_pos rfl]
      unfold Assignment.isAssigned at ha
      obtain ⟨y, hy⟩ := Option.isSome_iff_exists.mp ha
      rw [hy]
      rfl
    · rw [if_neg hu, if_neg hu]
  · rw [if_neg ha]
    unfold Assignment.isAssigned at ha
    have hnone : Assignment.get A v = none := by
      cases h : Assignment.get A v with
      | none => rfl
      | some y => exact absurd (by rw [h]; rfl) ha
    by_cases hu : u = v
    · subst hu
      rw [if_pos rfl, Assignment.get_append_none A _ u hnone]
      simp [Assignment.get]
    · rw [if_neg hu]
      cases h : Assignment.get A u with
      | some y => exact Assignment.get_append_some A _ u y h
      | none =>
        rw [Assignment.get_append_none A _ u h]
        simp only [Assignment.get]
        rw [if_neg (fun hh => hu hh.symm)]

theorem Assignment.get_assign_self (A : Assignment T) (v : String) (x : T) :
    Assignment.get (A.assign v x) v = some x := by
  rw [Assignment.get_assign, if_pos rfl]

theorem Assignment.get_assign_ne (A : Assignment T) (v u : String) (x : T)
    (h : u ≠ v) : Assignment.get (A.assign v x) u = Assignment.get A u := by
  rw [Assignment.get_assign, if_neg h]

end AssignLemmas

section ClaimC7

/-- One more than the total size of all registered domains: strictly
exceeds every count of domain values, standing in for the usize MAX
sentinel of the missing-domain branch (unreachable for registered
variables). -/
def domainSizeBound (csp : Csp T) : Nat :=
  (csp.doms.map (fun p => p.2.length)).sum + 1

/-- The per-variable count computed inside minimum_remaining_values of
heuristics.rs: the number of domain values whose tentative assignment
satisfies every constraint involving the variable. -/
def mrvKey (csp : Csp T) (A : Assignment T) (v : String) : Nat :=
  match csp.getDomain v with
  | some d =>
    (d.filter (fun x =>
      (csp.constraintsFor v).all
        (fun c => c.isSatisfied (A.assign v x)))).length
  | none => domainSizeBound csp

/-- heuristics.rs minimum_remaining_values: the first unassigned variable
with the minimal count. -/
def minimum_remaining_values (A : Assignment T) (csp : Csp T) :
    Option String :=
  minByFirst (mrvKey csp A)
    (csp.getVariables.filter (fun v => ! A.isAssigned v))

/-- The count named by the claim: domain values whose tentative
assignment satisfies every constraint of the Csp. Written from the
claim's words, for comparison with the implementation's count. -/
def globalCount (csp : Csp T) (A : Assignment T) (v : String) : Nat :=
  match csp.getDomain v with
  | some d =>
    (d.filter (fun x => csp.isConsistent (A.assign v x))).length
  | none => domainSizeBound csp

theorem minByFirst_none_iff (f : α → Nat) (l : List α) :
    minByFirst f l = none ↔ l = [] := by
  cases l with
  | nil => simp [minByFirst]
  | cons a t =>
    simp only [minByFirst]
    cases h : minByFirst f t with
    | none => simp
    | some b => by_cases hb : f b < f a <;> simp [hb]

theorem minByFirst_spec (f : α → Nat) :
    ∀ (l : List α) (a : α), minByFirst f l = some a →
      ∃ p q, l = p ++ a :: q ∧ (∀ b ∈ p, f a < f b) ∧ (∀ b ∈ q, f a ≤ f b) := by
  intro l
  induction l with
  | nil => intro a h; cases h
  | cons x xs ih =>
    intro a h
    simp only [minByFirst] at h
    cases hx : minByFirst f xs with
    | none =>
      rw [hx] at h
      injection h with h
      subst h
      have hnil : xs = [] := (minByFirst_none_iff f xs).mp hx
      subst hnil
      exact ⟨[], [], rfl, by simp, by simp⟩
    | some b =>
      simp only [hx] at h
      obtain ⟨p, q, hsplit, hp, hq⟩ := ih b hx
      by_cases hb : f b < f x
      · rw [if_pos hb] at h
        injection h with h
        subst h
        refine ⟨x :: p, q, by rw [hsplit]; rfl, ?_, hq⟩
        intro c hc
        rcases List.mem_cons.mp hc with hcx | hcp
        · subst hcx; exact hb
        · exact hp c hcp
      · rw [if_neg hb] at h
        injection h with h
        subst h
        refine ⟨[], xs, rfl, by simp, ?_⟩
        intro c hc
        have hab : f x ≤ f b := not_lt.mp hb
        rw [hsplit] at hc
        rcases List.mem_append.mp hc with hcp | hcq
        · exact le_of_lt (lt_of_le_of_lt hab (hp c hcp))
        · rcases List.mem_cons.mp hcq with hcb | hcq2
          · subst hcb; exact hab
          · exact le_trans hab (hq c hcq2)

/-- A predicate that depends only on the values of its scope variables;
the discipline every factory-built constraint follows. -/
def scopeLocal (c : Constraint T) : Prop :=
  ∀ A B : Assignment T,
    (∀ v ∈ c.scope, Assignment.get A v = Assignment.get B v) →
    c.pred A = c.pred B

theorem list_all_congr {p q : α → Bool} :
    ∀ l : List α, (∀ a ∈ l, p a = q a) → l.all p = l.all q := by
  intro l h
  induction l with
  | nil => rfl
  | cons a t ih =>
    simp only [List.all_cons]
    rw [h a (List.mem_cons_self _ _),
      ih (fun b hb => h b (List.mem_cons_of_mem _ hb))]

theorem not_involved_iff (c : Constraint T) (v : String) :
    c.involves v = false ↔ v ∉ c.scope := by
  unfold Constraint.involves
  rw [← Bool.not_eq_true]
  simp [List.contains]

theorem isSatisfied_of_get_eq (c : Constraint T) (hc : scopeLocal c)
    (A B : Assignment T)
    (h : ∀ u ∈ c.scope, Assignment.get A u = Assignment.get B u) :
    c.isSatisfied A = c.isSatisfied B := by
  unfold Constraint.isSatisfied
  have hall : (c.scope.all fun u => A.isAssigned u) =
      (c.scope.all fun u => B.isAssigned u) := by
    apply list_all_congr
    intro u hu
    unfold Assignment.isAssigned
    rw [h u hu]
  rw [hall]
  by_cases hb : (c.scope.all fun u => B.isAssigned u) = true
  · rw [if_pos hb, if_pos hb]
    exact hc A B h
  · rw [if_neg hb, if_neg hb]

theorem isSatisfied_assign_not_involved (c : Constraint T)
    (hc : scopeLocal c) (A : Assignment T) (v : String) (x : T)
    (hv : c.involves v = false) :
    c.isSatisfied (A.assign v x) = c.isSatisfied A := by
  apply isSatisfied_of_get_eq c hc
  intro u hu
  apply Assignment.get_assign_ne
  intro h
  subst h
  exact (not_involved_iff c u).mp hv hu

/-- For a consistent assignment, checking all constraints on an extension
equals checking only the constraints involving the extended variable. -/
theorem isConsistent_assign_eq_constraintsFor (csp : Csp T)
    (A : Assignment T) (hloc : ∀ c ∈ csp.cons, scopeLocal c)
    (hA : csp.isConsistent A = true) (v : String) (x : T) :
    csp.isConsistent (A.assign v x) =
      (csp.constraintsFor v).all (fun c => c.isSatisfied (A.assign v x)) := by
  unfold Csp.isConsistent Csp.constraintsFor
  rw [Bool.eq_iff_iff, List.all_eq_true, List.all_eq_true]
  constructor
  · intro h c hcmem
    exact h c (List.mem_of_mem_filter hcmem)
  · intro h c hcmem
    cases hinv : c.involves v with
    | true => exact h c (List.mem_filter.mpr ⟨hcmem, hinv⟩)
    | false =>
      rw [isSatisfied_assign_not_involved c (hloc c hcmem) A v x hinv]
      unfold Csp.isConsistent at hA
      rw [List.all_eq_true] at hA
      exact hA c hcmem

/-- A concrete Csp refuting claim C7: registered variables a, b, v1, v2;
c1 forces a and b to differ and c2 forces v2 and a to differ. -/
def c7csp : Csp Nat :=
  ⟨[("a", [0]), ("b", [0]), ("v1", [0, 1]), ("v2", [0])],
   [⟨"c1", ["a", "b"],
      fun A =>
        match Assignment.get A "a", Assignment.get A "b" with
        | some x, some y => decide (x ≠ y)
        | _, _ => true⟩,
    ⟨"c2", ["v2", "a"],
      fun A =>
        match Assignment.get A "v2", Assignment.get A "a" with
        | some x, some y => decide (x ≠ y)
        | _, _ => true⟩]⟩

/-- The inconsistent partial assignment of the C7 counterexample: a and b
both 0, violating c1. -/
def c7A : Assignment Nat := [("a", 0), ("b", 0)]

/-- Counterexample to claim C7 as stated: on the inconsistent partial
assignment, every extension violates c1, so the count of fully consistent
values is 0 for both unassigned variables v1 and v2; the claim's
minimum-with-ties-by-variable-order would select v1, yet the
implementation returns v2 (it counts only the constraints involving the
candidate variable). -/
theorem mrv_not_global_minimizer :
    minimum_remaining_values c7A c7csp = some "v2" ∧
    Assignment.isAssigned c7A "v1" = false ∧
    "v1" ∈ c7csp.getVariables ∧
    globalCount c7csp c7A "v1" = 0 ∧
    globalCount c7csp c7A "v2" = 0 ∧
    List.indexOf "v1" c7csp.getVariables <
      List.indexOf "v2" c7csp.getVariables := by
  refine ⟨by decide, by decide, by decide, by decide, by decide, by decide⟩

/-- Claim C7 (amended): minimum_remaining_values returns the first
unassigned variable, in get_variables order, of minimal count of domain
values whose assignment satisfies every constraint involving that
variable; some variable is returned whenever one is unassigned; and for
scope-local predicates this count coincides with the claim's
all-constraints count whenever the current assignment is consistent. -/
theorem mrv_spec (csp : Csp T) (A : Assignment T) :
    (∀ v, minimum_remaining_values A csp = some v →
      ∃ p q,
        csp.getVariables.filter (fun u => ! A.isAssigned u) = p ++ v :: q ∧
        (∀ u ∈ p, mrvKey csp A v < mrvKey csp A u) ∧
        (∀ u ∈ q, mrvKey csp A v ≤ mrvKey csp A u)) ∧
    ((∃ v ∈ csp.getVariables, A.isAssigned v = false) →
      (minimum_remaining_values A csp).isSome = true) ∧
    ((∀ c ∈ csp.cons, scopeLocal c) → csp.isConsistent A = true →
      ∀ v, mrvKey csp A v = globalCount csp A v) := by
  refine ⟨?_, ?_, ?_⟩
  · intro v hv
    exact minByFirst_spec (mrvKey csp A) _ v hv
  · rintro ⟨v, hvmem, hvun⟩
    have hmem : v ∈ csp.getVariables.filter (fun u => ! A.isAssigned u) :=
      List.mem_filter.mpr ⟨hvmem, by rw [hvun]; rfl⟩
    cases hrun : minimum_remaining_values A csp with
    | some w => rfl
    | none =>
      unfold minimum_remaining_values at hrun
      rw [minByFirst_none_iff] at hrun
      rw [hrun] at hmem
      cases hmem
  · intro hloc hA v
    unfold mrvKey globalCount
    cases hdom : csp.getDomain v with
    | none => rfl
    | some d =>
      simp only []
      congr 1
      apply List.filter_congr
      intro x _
      rw [isConsistent_assign_eq_constraintsFor csp A hloc hA v x]

/-- Witness for C7 at a concrete consistent state: with a and v2 forced
apart and a assigned 0, MRV selects v2 (one remaining value versus two
for v1), and its local count equals the claim's global count. -/
theorem mrv_spec_witness :
    (minimum_remaining_values [("a", 0)] c7csp).isSome = true ∧
    mrvKey c7csp [("a", 0)] "v2" = globalCount c7csp [("a", 0)] "v2" := by
  constructor
  · exact (mrv_spec c7csp [("a", 0)]).2.1 ⟨"v1", by decide, by decide⟩
  · exact (mrv_spec c7csp [("a", 0)]).2.2
      (by
        intro c hc
        rcases List.mem_cons.mp hc with rfl | hc2
        · intro A B h
          simp only []
          rw [h "a" (by decide), h "b" (by decide)]
        · rcases List.mem_singleton.mp hc2 with rfl
          intro A B h
          simp only []
          rw [h "v2" (by decide), h "a" (by decide)])
      (by decide) "v2"

end ClaimC7

section ClaimC8

/-- Total number of values across a domain map. -/
def totalSize (doms : List (String × List T)) : Nat :=
  (doms.map (fun p => p.2.length)).sum

/-- Sum of all constraint scope lengths: bounds the number of arcs any
single revision can enqueue. -/
def consScopeSum (csp : Csp T) : Nat :=
  (csp.cons.map (fun c => c.scope.length)).sum

/-- The termination measure of the AC-3 worklist loop. -/
def acMeasure (csp : Csp T) (queue : List (Arc T))
    (doms : List (String × List T)) : Nat :=
  totalSize doms * (consScopeSum csp + 1) + queue.length

theorem lookupD_insertD_self (doms : List (String × List T)) (k : String)
    (d : List T) : lookupD (insertD doms k d) k = d := by
  induction doms with
  | nil => simp [insertD, lookupD]
  | cons p rest ih =>
    obtain ⟨u, d0⟩ := p
    by_cases hu : u = k
    · simp [insertD, lookupD, hu]
    · simp only [insertD, lookupD, if_neg hu]
      exact ih

theorem lookupD_ne_nil_mem (doms : List (String × List T)) (k : String)
    (h : lookupD doms k ≠ []) : k ∈ doms.map Prod.fst := by
  induction doms with
  | nil => exact absurd rfl h
  | cons p rest ih =>
    obtain ⟨u, d0⟩ := p
    simp only [lookupD] at h
    by_cases hu : u = k
    · simp [hu]
    · rw [if_neg hu] at h
      simp only [List.map_cons, List.mem_cons]
      exact Or.inr (ih h)

theorem totalSize_insertD (doms : List (String × List T)) (k : String)
    (d : List T) (h : k ∈ doms.map Prod.fst) :
    totalSize (insertD doms k d) + (lookupD doms k).length =
      totalSize doms + d.length := by
  induction doms with
  | nil => cases h
  | cons p rest ih =>
    obtain ⟨u, d0⟩ := p
    by_cases hu : u = k
    · simp only [insertD, if_pos hu, lookupD, totalSize, List.map_cons,
        List.sum_cons]
      omega
    · simp only [insertD, if_neg hu, lookupD, totalSize, List.map_cons,
        List.sum_cons]
      have hmem : k ∈ rest.map Prod.fst := by
        simp only [List.map_cons, List.mem_cons] at h
        rcases h with h | h
        · exact absurd h.symm hu
        · exact h
      have := ih hmem
      unfold totalSize at this
      omega

theorem length_filter_lt_of_exists_not {p : α → Bool} (l : List α)
    (h : ∃ a ∈ l, p a = false) : (l.filter p).length < l.length := by
  induction l with
  | nil => obtain ⟨a, ha, _⟩ := h; cases ha
  | cons x xs ih =>
    obtain ⟨a, ha, hpa⟩ := h
    have hle := List.length_filter_le p xs
    rcases List.mem_cons.mp ha with rfl | hmem
    · simp only [List.filter_cons, hpa, Bool.false_eq_true, if_false,
        List.length_cons]
      omega
    · cases hpx : p x
      · simp only [List.filter_cons, hpx, Bool.false_eq_true, if_false,
          List.length_cons]
        omega
      · have hih := ih ⟨a, hmem, hpa⟩
        simp only [List.filter_cons, hpx, if_true, List.length_cons]
        omega

theorem filter_mem_filter [DecidableEq α] (l : List α) (p : α → Bool) :
    l.filter (fun y => decide (y ∈ l.filter p)) = l.filter p := by
  apply List.filter_congr
  intro y hy
  cases hs : p y
  · simp [List.mem_filter, hs]
  · simp [List.mem_filter, hs, hy]

/-- The outcome of revise: either every value has support and nothing
changes, or the unsupported values are dropped. -/
theorem revise_eq (doms : List (String × List T)) (xi xj : String)
    (c : Constraint T) :
    revise doms xi xj c =
      if (lookupD doms xi).all (reviseSupport doms xi xj c)
      then (false, doms)
      else (true, insertD doms xi
        ((lookupD doms xi).filter (reviseSupport doms xi xj c))) := by
  simp only [revise]
  rw [filter_mem_filter]

/-- The first conjunct of claim C8: a revision that reports true strictly
shrinks the revised variable's domain. -/
theorem revise_true_shrinks (doms : List (String × List T)) (xi xj : String)
    (c : Constraint T) (h : (revise doms xi xj c).1 = true) :
    (lookupD (revise doms xi xj c).2 xi).length <
      (lookupD doms xi).length := by
  rw [revise_eq] at h ⊢
  by_cases hall : (lookupD doms xi).all (reviseSupport doms xi xj c) = true
  · rw [if_pos hall] at h
    cases h
  · rw [if_neg hall]
    simp only []
    rw [lookupD_insertD_self]
    apply length_filter_lt_of_exists_not
    by_contra hcon
    push_neg at hcon
    apply hall
    rw [List.all_eq_true]
    intro a ha
    have := hcon a ha
    cases hs : reviseSupport doms xi xj c a
    · exact absurd hs this
    · rfl

theorem revise_false_eq (doms : List (String × List T)) (xi xj : String)
    (c : Constraint T) (h : (revise doms xi xj c).1 = false) :
    (revise doms xi xj c).2 = doms := by
  rw [revise_eq] at h ⊢
  by_cases hall : (lookupD doms xi).all (reviseSupport doms xi xj c) = true
  · rw [if_pos hall]
  · rw [if_neg hall] at h
    cases h

theorem revise_true_totalSize (doms : List (String × List T))
    (xi xj : String) (c : Constraint T) (h : (revise doms xi xj c).1 = true) :
    totalSize (revise doms xi xj c).2 < totalSize doms := by
  have hshrink := revise_true_shrinks doms xi xj c h
  have hne : lookupD doms xi ≠ [] := by
    intro hnil
    rw [hnil] at hshrink
    simp at hshrink
  have hmem := lookupD_ne_nil_mem doms xi hne
  rw [revise_eq] at h ⊢
  by_cases hall : (lookupD doms xi).all (reviseSupport doms xi xj c) = true
  · rw [if_pos hall] at h
    cases h
  · rw [if_neg hall]
    simp only []
    have hts := totalSize_insertD doms xi
      ((lookupD doms xi).filter (reviseSupport doms xi xj c)) hmem
    rw [revise_eq, if_neg hall] at hshrink
    simp only [] at hshrink
    rw [lookupD_insertD_self] at hshrink
    omega

theorem length_flatMap_le_sum {f : β → List γ} {g : β → Nat} :
    ∀ l : List β, (∀ b ∈ l, (f b).length ≤ g b) →
      (l.flatMap f).length ≤ (l.map g).sum := by
  intro l h
  induction l with
  | nil => simp
  | cons x xs ih =>
    simp only [List.flatMap_cons, List.length_append, List.map_cons,
      List.sum_cons]
    have h1 := h x (List.mem_cons_self _ _)
    have h2 := ih (fun b hb => h b (List.mem_cons_of_mem _ hb))
    omega

theorem sum_map_filter_le (g : β → Nat) (p : β → Bool) :
    ∀ l : List β, ((l.filter p).map g).sum ≤ (l.map g).sum := by
  intro l
  induction l with
  | nil => simp
  | cons x xs ih =>
    simp only [List.filter_cons]
    cases p x
    · simp only [Bool.false_eq_true, if_false, List.map_cons, List.sum_cons]
      omega
    · simp only [if_true, List.map_cons, List.sum_cons]
      omega

theorem newArcs_le (csp : Csp T) (xi xj : String) :
    (newArcs csp xi xj).length ≤ consScopeSum csp := by
  unfold newArcs consScopeSum
  calc (((csp.constraintsFor xi)).flatMap (fun c =>
        (c.scope.filter (fun u => decide (u ≠ xi) && decide (u ≠ xj))).map
          (fun u => (u, xi, c)))).length
      ≤ ((csp.constraintsFor xi).map (fun c => c.scope.length)).sum := by
        apply length_flatMap_le_sum
        intro c _
        rw [List.length_map]
        exact List.length_filter_le _ _
    _ ≤ (csp.cons.map (fun c => c.scope.length)).sum := by
        unfold Csp.constraintsFor
        exact sum_map_filter_le _ _ _

/-- The worklist loop is total: the given fuel bound suffices. -/
theorem ac3_total (csp : Csp T) :
    ∀ (fuel : Nat) (queue : List (Arc T)) (doms : List (String × List T)),
      acMeasure csp queue doms < fuel →
      (ac3 csp fuel queue doms).isSome = true := by
  intro fuel
  induction fuel with
  | zero =>
    intro queue doms h
    exact absurd h (Nat.not_lt_zero _)
  | succ fuel ih =>
    intro queue doms h
    cases queue with
    | nil => rfl
    | cons arc rest =>
      obtain ⟨xi, xj, c⟩ := arc
      simp only [ac3]
      cases hr : (revise doms xi xj c).1 with
      | false =>
        simp only [Bool.false_eq_true, if_false]
        apply ih
        unfold acMeasure at h ⊢
        simp only [List.length_cons] at h
        omega
      | true =>
        simp only [if_true]
        by_cases hempty :
            ((lookupD (revise doms xi xj c).2 xi).isEmpty : Bool) = true
        · rw [if_pos hempty]
          rfl
        · rw [if_neg hempty]
          apply ih
          have h1 := revise_true_totalSize doms xi xj c hr
          have h2 := newArcs_le csp xi xj
          unfold acMeasure at h ⊢
          simp only [List.length_cons] at h
          rw [List.length_append]
          have h3 : totalSize (revise doms xi xj c).2 *
                (consScopeSum csp + 1) + (consScopeSum csp + 1) ≤
              totalSize doms * (consScopeSum csp + 1) := by
            have hsucc : totalSize (revise doms xi xj c).2 + 1 ≤
                totalSize doms := h1
            calc totalSize (revise doms xi xj c).2 *
                  (consScopeSum csp + 1) + (consScopeSum csp + 1)
                = (totalSize (revise doms xi xj c).2 + 1) *
                  (consScopeSum csp + 1) := by ring
              _ ≤ totalSize doms * (consScopeSum csp + 1) :=
                  Nat.mul_le_mul_right _ hsucc
          omega

/-- Claim C8: every revision returning true strictly shrinks the revised
domain, and the AC-3 worklist procedure is total: the explicit fuel bound
derived from the total domain size and the constraint scope sizes always
suffices, both for the ac3 entry point (hence for the solver's
preprocessing) and for every maintain_arc_consistency call. -/
theorem ac3_terminates (csp : Csp T) :
    (∀ (doms : List (String × List T)) (xi xj : String) (c : Constraint T),
      (revise doms xi xj c).1 = true →
      (lookupD (revise doms xi xj c).2 xi).length <
        (lookupD doms xi).length) ∧
    (∀ (queue : List (Arc T)) (doms : List (String × List T)),
      (ac3 csp (acMeasure csp queue doms + 1) queue doms).isSome = true) ∧
    (∀ (v : String) (x : T) (doms : List (String × List T)), ∃ fuel,
      (maintain_arc_consistency csp fuel v x doms).isSome = true) := by
  refine ⟨revise_true_shrinks, ?_, ?_⟩
  · intro queue doms
    exact ac3_total csp _ queue doms (Nat.lt_succ_self _)
  · intro v x doms
    refine ⟨acMeasure csp (binaryArcs csp)
      (insertD doms v
        ((lookupD doms v).filter (fun y => decide (y ∈ [x])))) + 1, ?_⟩
    unfold maintain_arc_consistency
    exact ac3_total csp _ _ _ (Nat.lt_succ_self _)

/-- The binary inequality constraint of the C8 witness. -/
def c8diff : Constraint Nat :=
  ⟨"d", ["x", "y"],
    fun A =>
      match Assignment.get A "x", Assignment.get A "y" with
      | some a, some b => decide (a ≠ b)
      | _, _ => true⟩

/-- The Csp of the C8 witness: x and y both pinned to 0 and forced to
differ, so revising x against y wipes x's domain. -/
def c8csp : Csp Nat := ⟨[("x", [0]), ("y", [0])], [c8diff]⟩

/-- Witness for C8 at the concrete Csp: the revision of x against y
reports true and strictly shrinks x's domain, and ac3 at the computed
bound returns a value. -/
theorem ac3_terminates_witness :
    (lookupD (revise [("x", [0]), ("y", [0])] "x" "y" c8diff).2 "x").length <
      (lookupD [("x", ([0] : List Nat)), ("y", [0])] "x").length ∧
    (ac3 c8csp (acMeasure c8csp (binaryArcs c8csp) c8csp.doms + 1)
      (binaryArcs c8csp) c8csp.doms).isSome = true := by
  constructor
  · exact (ac3_terminates c8csp).1 [("x", [0]), ("y", [0])] "x" "y" c8diff
      (by decide)
  · exact (ac3_terminates c8csp).2.1 (binaryArcs c8csp) c8csp.doms

end ClaimC8

section ClaimC6

theorem btVals_flag_false (csp : Csp T)
    (recur : Assignment T → List (Assignment T) →
      Option (Assignment T × List (Assignment T) × Bool))
    (v : String)
    (hrec : ∀ A s r, recur A s = some r → r.2.2 = false) :
    ∀ (vals : List T) (A : Assignment T) (sols : List (Assignment T)) r,
      btVals csp recur v vals A sols = some r → r.2.2 = false := by
  intro vals
  induction vals with
  | nil =>
    intro A sols r h
    simp only [btVals] at h
    injection h with h
    subst h
    rfl
  | cons x xs ih =>
    intro A sols r h
    simp only [btVals] at h
    cases hc : csp.isConsistent (A.assign v x) with
    | false =>
      rw [hc] at h
      simp only [Bool.false_eq_true, if_false] at h
      exact ih _ _ _ h
    | true =>
      rw [hc] at h
      simp only [if_true] at h
      cases hr : recur (A.assign v x) sols with
      | none =>
        rw [hr] at h
        cases h
      | some p =>
        obtain ⟨A2, s2, b⟩ := p
        rw [hr] at h
        cases b with
        | true =>
          have := hrec _ _ _ hr
          cases this
        | false =>
          exact ih _ _ _ h

theorem backtrack_true_flag_false (csp : Csp T) (sel : Sel T) (ord : Ord T) :
    ∀ (fuel : Nat) (A : Assignment T) (sols : List (Assignment T)) r,
      backtrack csp sel ord true fuel A sols = some r → r.2.2 = false := by
  intro fuel
  induction fuel with
  | zero =>
    intro A sols r h
    simp only [backtrack] at h
    cases h
  | succ fuel ih =>
    intro A sols r h
    simp only [backtrack] at h
    by_cases hcomp : A.size = csp.numVariables
    · rw [if_pos hcomp] at h
      injection h with h
      subst h
      rfl
    · rw [if_neg hcomp] at h
      cases hsel : sel A csp with
      | none =>
        simp only [hsel] at h
        injection h with h
        subst h
        rfl
      | some v =>
        simp only [hsel] at h
        cases hdom : csp.getDomain v with
        | none =>
          simp only [hdom] at h
          injection h with h
          subst h
          rfl
        | some d =>
          simp only [hdom] at h
          exact btVals_flag_false csp _ v
            (fun A2 s2 r2 h2 => ih A2 s2 r2 h2) _ _ _ _ h

theorem btVals_extends (csp : Csp T)
    (recur : Assignment T → List (Assignment T) →
      Option (Assignment T × List (Assignment T) × Bool))
    (v : String)
    (hmono : ∀ A s r, recur A s = some r → ∃ Δ, r.2.1 = s ++ Δ) :
    ∀ (vals : List T) (A : Assignment T) (sols : List (Assignment T)) r,
      btVals csp recur v vals A sols = some r →
      ∃ Δ, r.2.1 = sols ++ Δ := by
  intro vals
  induction vals with
  | nil =>
    intro A sols r h
    simp only [btVals] at h
    injection h with h
    subst h
    exact ⟨[], by simp⟩
  | cons x xs ih =>
    intro A sols r h
    simp only [btVals] at h
    cases hc : csp.isConsistent (A.assign v x) with
    | false =>
      rw [hc] at h
      simp only [Bool.false_eq_true, if_false] at h
      exact ih _ _ _ h
    | true =>
      rw [hc] at h
      simp only [if_true] at h
      cases hr : recur (A.assign v x) sols with
      | none =>
        rw [hr] at h
        cases h
      | some p =>
        obtain ⟨A2, s2, b⟩ := p
        rw [hr] at h
        obtain ⟨Δ1, hΔ1⟩ := hmono _ _ _ hr
        simp only [] at hΔ1
        cases b with
        | true =>
          injection h with h
          subst h
          exact ⟨Δ1, hΔ1⟩
        | false =>
          obtain ⟨Δ2, hΔ2⟩ := ih _ _ _ h
          refine ⟨Δ1 ++ Δ2, ?_⟩
          rw [hΔ2, hΔ1, List.append_assoc]

theorem backtrack_extends (csp : Csp T) (sel : Sel T) (ord : Ord T)
    (ca : Bool) :
    ∀ (fuel : Nat) (A : Assignment T) (sols : List (Assignment T)) r,
      backtrack csp sel ord ca fuel A sols = some r →
      ∃ Δ, r.2.1 = sols ++ Δ := by
  intro fuel
  induction fuel with
  | zero =>
    intro A sols r h
    simp only [backtrack] at h
    cases h
  | succ fuel ih =>
    intro A sols r h
    simp only [backtrack] at h
    by_cases hcomp : A.size = csp.numVariables
    · rw [if_pos hcomp] at h
      injection h with h
      subst h
      exact ⟨[A], rfl⟩
    · rw [if_neg hcomp] at h
      cases hsel : sel A csp with
      | none =>
        simp only [hsel] at h
        injection h with h
        subst h
        exact ⟨[], by simp⟩
      | some v =>
        simp only [hsel] at h
        cases hdom : csp.getDomain v with
        | none =>
          simp only [hdom] at h
          injection h with h
          subst h
          exact ⟨[], by simp⟩
        | some d =>
          simp only [hdom] at h
          exact btVals_extends csp _ v (fun A2 s2 r2 h2 => ih A2 s2 r2 h2)
            _ _ _ _ h

theorem btVals_sim (csp : Csp T) (limit : Nat)
    (recurA recurL : Assignment T → List (Assignment T) →
      Option (Assignment T × List (Assignment T) × Bool))
    (v : String)
    (hmono : ∀ A s r, recurA A s = some r → ∃ Δ, r.2.1 = s ++ Δ)
    (hsim : ∀ A s Aa Sa, recurA A s = some (Aa, Sa, false) →
      s.length < limit →
      ∃ A3, recurL A s = some (A3, Sa.take limit,
          decide (limit ≤ Sa.length)) ∧
        (Sa.length < limit → A3 = Aa)) :
    ∀ (vals : List T) (A : Assignment T) (sols : List (Assignment T))
      (Aa : Assignment T) (Sa : List (Assignment T)),
      btVals csp recurA v vals A sols = some (Aa, Sa, false) →
      sols.length < limit →
      ∃ A3, btVals csp recurL v vals A sols =
          some (A3, Sa.take limit, decide (limit ≤ Sa.length)) ∧
        (Sa.length < limit → A3 = Aa) := by
  intro vals
  induction vals with
  | nil =>
    intro A sols Aa Sa h hlen
    simp only [btVals] at h ⊢
    simp only [Option.some.injEq, Prod.mk.injEq] at h
    obtain ⟨h1, h2, -⟩ := h
    subst h2
    rw [List.take_of_length_le (le_of_lt hlen)]
    have hdec : decide (limit ≤ sols.length) = false := by
      simp only [decide_eq_false_iff_not]
      exact not_le.mpr hlen
    rw [hdec]
    exact ⟨Aa, by rw [h1], fun _ => rfl⟩
  | cons x xs ih =>
    intro A sols Aa Sa h hlen
    simp only [btVals] at h ⊢
    cases hc : csp.isConsistent (A.assign v x) with
    | false =>
      rw [hc] at h
      simp only [Bool.false_eq_true, if_false] at h ⊢
      exact ih _ _ _ _ h hlen
    | true =>
      rw [hc] at h
      simp only [if_true] at h ⊢
      cases hra : recurA (A.assign v x) sols with
      | none =>
        rw [hra] at h
        cases h
      | some p =>
        obtain ⟨A2, s2, b⟩ := p
        rw [hra] at h
        cases b with
        | true =>
          injection h with h
          simp only [Prod.mk.injEq] at h
          exact absurd h.2.2 (by simp)
        | false =>
          obtain ⟨A3, hL, hA3⟩ := hsim _ _ _ _ hra hlen
          by_cases hs2 : s2.length < limit
          · have hflagL : decide (limit ≤ s2.length) = false := by
              simp only [decide_eq_false_iff_not]
              exact not_le.mpr hs2
            rw [hflagL] at hL
            rw [hL]
            rw [List.take_of_length_le (le_of_lt hs2)]
            have hA3' : A3 = A2 := hA3 hs2
            subst hA3'
            exact ih _ _ _ _ h hs2
          · have hlim : limit ≤ s2.length := not_lt.mp hs2
            have hflagL : decide (limit ≤ s2.length) = true := by
              simp only [decide_eq_true_eq]
              exact hlim
            rw [hflagL] at hL
            rw [hL]
            obtain ⟨Δ, hΔ⟩ := btVals_extends csp recurA v hmono xs
              (A2.unassign v) s2 (Aa, Sa, false) h
            simp only [] at hΔ
            subst hΔ
            rw [List.take_append_of_le_length hlim]
            have hflagA : decide (limit ≤ (s2 ++ Δ).length) = true := by
              simp only [decide_eq_true_eq, List.length_append]
              omega
            rw [hflagA]
            refine ⟨A3, rfl, fun hcon => ?_⟩
            rw [List.length_append] at hcon
            omega

theorem backtrack_sim (csp : Csp T) (sel : Sel T) (ord : Ord T)
    (limit : Nat) :
    ∀ (fuel : Nat) (A : Assignment T) (sols : List (Assignment T))
      (Aa : Assignment T) (Sa : List (Assignment T)),
      backtrack csp sel ord true fuel A sols = some (Aa, Sa, false) →
      sols.length < limit →
      ∃ A3, backtrack_limited csp sel ord limit fuel A sols =
          some (A3, Sa.take limit, decide (limit ≤ Sa.length)) ∧
        (Sa.length < limit → A3 = Aa) := by
  intro fuel
  induction fuel with
  | zero =>
    intro A sols Aa Sa h hlen
    simp only [backtrack] at h
    cases h
  | succ fuel ih =>
    intro A sols Aa Sa h hlen
    simp only [backtrack] at h
    simp only [backtrack_limited]
    rw [if_neg (not_le.mpr hlen)]
    by_cases hcomp : A.size = csp.numVariables
    · rw [if_pos hcomp] at h ⊢
      simp only [Option.some.injEq, Prod.mk.injEq] at h
      obtain ⟨h1, h2, -⟩ := h
      refine ⟨Aa, ?_, fun _ => rfl⟩
      rw [← h2, h1]
      rw [List.take_of_length_le
        (by rw [List.length_append, List.length_singleton]; omega),
        List.length_append, List.length_singleton]
    · rw [if_neg hcomp] at h ⊢
      cases hsel : sel A csp with
      | none =>
        simp only [hsel] at h ⊢
        simp only [Option.some.injEq, Prod.mk.injEq] at h
        obtain ⟨h1, h2, -⟩ := h
        subst h2
        rw [List.take_of_length_le (le_of_lt hlen)]
        have hdec : decide (limit ≤ sols.length) = false := by
          simp only [decide_eq_false_iff_not]
          exact not_le.mpr hlen
        rw [hdec]
        exact ⟨Aa, by rw [h1], fun _ => rfl⟩
      | some v =>
        simp only [hsel] at h ⊢
        cases hdom : csp.getDomain v with
        | none =>
          simp only [hdom] at h ⊢
          simp only [Option.some.injEq, Prod.mk.injEq] at h
          obtain ⟨h1, h2, -⟩ := h
          subst h2
          rw [List.take_of_length_le (le_of_lt hlen)]
          have hdec : decide (limit ≤ sols.length) = false := by
            simp only [decide_eq_false_iff_not]
            exact not_le.mpr hlen
          rw [hdec]
          exact ⟨Aa, by rw [h1], fun _ => rfl⟩
        | some d =>
          simp only [hdom] at h ⊢
          exact btVals_sim csp limit _ _ v
            (fun A2 s2 r2 h2 => backtrack_extends csp sel ord true fuel
              A2 s2 r2 h2)
            (fun A2 s2 Aa2 Sa2 h2 hl2 => ih A2 s2 Aa2 Sa2 h2 hl2)
            _ _ _ _ _ h hlen

/-- Claim C6: find_limited_solutions with limit 0 returns the empty list
immediately (for every Csp, strategies and fuel, even zero fuel, hence
without invoking any constraint predicate), and whenever
find_all_solutions returns a list S, find_limited_solutions with the same
strategies and fuel returns exactly the first min(k, |S|) elements of S,
in the same order. -/
theorem find_limited_solutions_prefix (csp : Csp T) (sel : Sel T)
    (ord : Ord T) :
    (∀ fuel : Nat, find_limited_solutions csp sel ord 0 fuel = some []) ∧
    (∀ (fuel : Nat) (S : List (Assignment T)),
      find_all_solutions csp sel ord fuel = some S →
      ∀ k, find_limited_solutions csp sel ord k fuel = some (S.take k) ∧
        (S.take k).length = min k S.length) := by
  constructor
  · intro fuel
    rfl
  · intro fuel S h k
    refine ⟨?_, List.length_take k S⟩
    by_cases hk : k = 0
    · subst hk
      rfl
    · unfold find_all_solutions at h
      cases hbt : backtrack csp sel ord true fuel Assignment.empty [] with
      | none =>
        rw [hbt] at h
        cases h
      | some r =>
        obtain ⟨Aa, Sa, b⟩ := r
        have hb : b = false :=
          backtrack_true_flag_false csp sel ord fuel _ _ _ hbt
        subst hb
        rw [hbt] at h
        injection h with h
        simp only [] at h
        subst h
        have hlen0 : ([] : List (Assignment T)).length < k := by
          simp only [List.length_nil]
          omega
        obtain ⟨A3, hlim, -⟩ := backtrack_sim csp sel ord k fuel
          Assignment.empty [] Aa Sa hbt hlen0
        unfold find_limited_solutions
        rw [if_neg hk, hlim]
        rfl

/-- Witness for C6 at a concrete Csp: all four solutions of the
two-variable unconstrained problem are found, and the limited search with
limit 1 returns exactly the first of them. -/
theorem find_limited_solutions_prefix_witness :
    find_limited_solutions
      (⟨[("a", [0, 1]), ("b", [0, 1])], []⟩ : Csp Nat)
      first_unassigned domain_order 1 4 =
      some [[("a", 0), ("b", 0)]] := by
  have hall : find_all_solutions
      (⟨[("a", [0, 1]), ("b", [0, 1])], []⟩ : Csp Nat)
      first_unassigned domain_order 4 =
      some [[("a", 0), ("b", 0)], [("a", 0), ("b", 1)],
        [("a", 1), ("b", 0)], [("a", 1), ("b", 1)]] := by decide
  exact (( find_limited_solutions_prefix _ first_unassigned
    domain_order).2 4 _ hall 1).1

end ClaimC6

section ClaimC2

theorem Assignment.isAssigned_of_mem_keys (A : Assignment T) (v : String)
    (h : v ∈ A.keys) : A.isAssigned v = true := by
  induction A with
  | nil => cases h
  | cons p rest ih =>
    obtain ⟨u, x⟩ := p
    unfold Assignment.isAssigned
    simp only [Assignment.get]
    by_cases hu : u = v
    · rw [if_pos hu]
      rfl
    · rw [if_neg hu]
      apply ih
      simp only [Assignment.keys, List.map_cons, List.mem_cons] at h
      rcases h with h | h
      · exact absurd h.symm hu
      · exact h

theorem Assignment.isAssigned_false_of_not_mem (A : Assignment T)
    (v : String) (h : v ∉ A.keys) : A.isAssigned v = false := by
  unfold Assignment.isAssigned
  rw [Assignment.get_eq_none_of_not_mem_keys A v h]
  rfl

theorem Assignment.assign_eq_append (A : Assignment T) (v : String) (x : T)
    (h : v ∉ A.keys) : A.assign v x = A ++ [(v, x)] := by
  unfold Assignment.assign
  rw [Assignment.isAssigned_false_of_not_mem A v h]
  simp

theorem Assignment.keys_append_single (A : Assignment T) (v : String)
    (x : T) : (A ++ [(v, x)]).keys = A.keys ++ [v] := by
  unfold Assignment.keys
  rw [List.map_append]
  rfl

theorem Assignment.unassign_of_not_mem (A : Assignment T) (v : String)
    (h : v ∉ A.keys) : A.unassign v = A := by
  unfold Assignment.unassign
  apply List.filter_eq_self.mpr
  intro p hp
  simp only [decide_eq_true_eq]
  intro hpv
  apply h
  rw [← hpv]
  exact List.mem_map_of_mem Prod.fst hp

theorem Assignment.unassign_append_single (A : Assignment T) (v : String)
    (x : T) (h : v ∉ A.keys) : (A ++ [(v, x)]).unassign v = A := by
  unfold Assignment.unassign
  rw [List.filter_append]
  have h1 : A.filter (fun p => decide (p.1 ≠ v)) = A :=
    Assignment.unassign_of_not_mem A v h
  rw [h1]
  simp

theorem Assignment.size_eq_keys_length (A : Assignment T) :
    A.size = A.keys.length := by
  unfold Assignment.size Assignment.keys
  rw [List.length_map]

theorem find?_middle {p : α → Bool} :
    ∀ (l1 : List α) (v : α) (l2 : List α),
      (∀ u ∈ l1, p u = false) → p v = true →
      List.find? p (l1 ++ v :: l2) = some v := by
  intro l1
  induction l1 with
  | nil =>
    intro v l2 _ hv
    simp only [List.nil_append]
    exact List.find?_cons_of_pos _ hv
  | cons u l1 ih =>
    intro v l2 h hv
    simp only [List.cons_append]
    rw [List.find?_cons_of_neg]
    · exact ih v l2 (fun w hw => h w (List.mem_cons_of_mem _ hw)) hv
    · rw [h u (List.mem_cons_self _ _)]
      simp

theorem getDomain_go_middle (v : String) (d : List T) :
    ∀ (pre : List (String × List T)) (rest : List (String × List T)),
      v ∉ pre.map Prod.fst →
      Csp.getDomain.go (pre ++ (v, d) :: rest) v = some d := by
  intro pre
  induction pre with
  | nil =>
    intro rest _
    simp [Csp.getDomain.go]
  | cons p pre ih =>
    intro rest h
    obtain ⟨u, d0⟩ := p
    simp only [List.cons_append, Csp.getDomain.go]
    simp only [List.map_cons, List.mem_cons] at h
    push_neg at h
    rw [if_neg (fun hh => h.1 hh.symm)]
    exact ih rest h.2

/-- The pure left-to-right enumeration of all consistent canonical
extensions of a partial assignment over the remaining variables, pruning
each inconsistent one-step extension: the search tree of the backtracking
engine under first_unassigned and domain_order. -/
def extensions (csp : Csp T) : Assignment T → List (String × List T) →
    List (Assignment T)
  | A, [] => [A]
  | A, (v, d) :: rest =>
    d.flatMap (fun x =>
      if csp.isConsistent (A ++ [(v, x)]) then
        extensions csp (A ++ [(v, x)]) rest
      else [])

theorem btVals_enum (csp : Csp T) (v : String)
    (rest : List (String × List T))
    (recur : Assignment T → List (Assignment T) →
      Option (Assignment T × List (Assignment T) × Bool))
    (A : Assignment T) (hvA : v ∉ A.keys)
    (hrec : ∀ (x : T) (sols : List (Assignment T)),
      recur (A ++ [(v, x)]) sols =
        some (A ++ [(v, x)], sols ++ extensions csp (A ++ [(v, x)]) rest,
          false)) :
    ∀ (xs : List T) (sols : List (Assignment T)),
      btVals csp recur v xs A sols =
        some (A, sols ++ xs.flatMap (fun x =>
          if csp.isConsistent (A ++ [(v, x)]) then
            extensions csp (A ++ [(v, x)]) rest
          else []), false) := by
  intro xs
  induction xs with
  | nil =>
    intro sols
    simp [btVals]
  | cons x xs ih =>
    intro sols
    simp only [btVals]
    rw [Assignment.assign_eq_append A v x hvA]
    cases hc : csp.isConsistent (A ++ [(v, x)]) with
    | false =>
      simp only [hc, Bool.false_eq_true, if_false]
      rw [Assignment.unassign_append_single A v x hvA]
      rw [ih sols]
      simp only [List.flatMap_cons, hc, Bool.false_eq_true, if_false,
        List.nil_append]
    | true =>
      simp only [hc, if_true]
      simp only [hrec]
      rw [Assignment.unassign_append_single A v x hvA]
      rw [ih]
      simp only [List.flatMap_cons, hc, if_true]
      rw [List.append_assoc]

theorem backtrack_enum (csp : Csp T) (hvars : csp.getVariables.Nodup) :
    ∀ (rest pre : List (String × List T)),
      csp.doms = pre ++ rest →
      ∀ (A : Assignment T) (sols : List (Assignment T)),
        A.keys = pre.map Prod.fst →
        backtrack csp first_unassigned domain_order true (rest.length + 1)
            A sols =
          some (A, sols ++ extensions csp A rest, false) := by
  intro rest
  induction rest with
  | nil =>
    intro pre hsplit A sols hkeys
    simp only [backtrack]
    have hsize : A.size = csp.numVariables := by
      rw [Assignment.size_eq_keys_length, hkeys, List.length_map]
      unfold Csp.numVariables
      rw [hsplit, List.append_nil]
    rw [if_pos hsize]
    simp [extensions]
  | cons vd rest ih =>
    intro pre hsplit A sols hkeys
    obtain ⟨v, d⟩ := vd
    have hgetvars : csp.getVariables =
        pre.map Prod.fst ++ v :: rest.map Prod.fst := by
      unfold Csp.getVariables
      rw [hsplit, List.map_append]
      rfl
    have hnodup := hvars
    rw [hgetvars] at hnodup
    have hvpre : v ∉ pre.map Prod.fst := by
      rw [List.nodup_append] at hnodup
      intro hmem
      exact hnodup.2.2 hmem (List.mem_cons_self _ _)
    have hvA : v ∉ A.keys := by
      rw [hkeys]
      exact hvpre
    simp only [backtrack]
    have hsize : ¬ A.size = csp.numVariables := by
      rw [Assignment.size_eq_keys_length, hkeys, List.length_map]
      unfold Csp.numVariables
      rw [hsplit, List.length_append]
      simp only [List.length_cons]
      omega
    rw [if_neg hsize]
    have hfind : first_unassigned A csp = some v := by
      unfold first_unassigned
      rw [hgetvars]
      apply find?_middle
      · intro u hu
        rw [Assignment.isAssigned_of_mem_keys A u (by rw [hkeys]; exact hu)]
        rfl
      · rw [Assignment.isAssigned_false_of_not_mem A v hvA]
        rfl
    simp only [hfind]
    have hdom : csp.getDomain v = some d := by
      unfold Csp.getDomain
      rw [hsplit]
      exact getDomain_go_middle v d pre rest hvpre
    simp only [hdom]
    simp only [domain_order]
    rw [btVals_enum csp v rest _ A hvA]
    · rfl
    · intro x sols2
      have hkeys2 : (A ++ [(v, x)]).keys = (pre ++ [(v, d)]).map Prod.fst := by
        rw [Assignment.keys_append_single, hkeys, List.map_append]
        rfl
      have hsplit2 : csp.doms = (pre ++ [(v, d)]) ++ rest := by
        rw [hsplit, List.append_assoc]
        rfl
      exact ih (pre ++ [(v, d)]) hsplit2 (A ++ [(v, x)]) sols2 hkeys2

theorem isSatisfied_append_false (c : Constraint T) (hc : scopeLocal c)
    (A tail : Assignment T) (h : c.isSatisfied A = false) :
    c.isSatisfied (A ++ tail) = false := by
  unfold Constraint.isSatisfied at h ⊢
  by_cases hall : c.scope.all (fun u => A.isAssigned u) = true
  · rw [if_pos hall] at h
    have hget : ∀ u ∈ c.scope,
        Assignment.get (A ++ tail) u = Assignment.get A u := by
      intro u hu
      rw [List.all_eq_true] at hall
      have hass := hall u hu
      unfold Assignment.isAssigned at hass
      obtain ⟨y, hy⟩ := Option.isSome_iff_exists.mp hass
      rw [hy]
      exact Assignment.get_append_some A tail u y hy
    have hall2 : c.scope.all (fun u => (A ++ tail).isAssigned u) = true := by
      rw [List.all_eq_true] at hall ⊢
      intro u hu
      unfold Assignment.isAssigned
      rw [hget u hu]
      exact hall u hu
    rw [if_pos hall2, hc (A ++ tail) A hget]
    exact h
  · rw [if_neg hall] at h
    cases h

theorem isConsistent_append_false (csp : Csp T)
    (hloc : ∀ c ∈ csp.cons, scopeLocal c) (A tail : Assignment T)
    (h : csp.isConsistent A = false) :
    csp.isConsistent (A ++ tail) = false := by
  have hex : ∃ c ∈ csp.cons, c.isSatisfied A = false := by
    by_contra hno
    push_neg at hno
    have hall : csp.cons.all (fun c => c.isSatisfied A) = true := by
      rw [List.all_eq_true]
      intro c hcm
      cases hcs : c.isSatisfied A
      · exact absurd hcs (hno c hcm)
      · rfl
    unfold Csp.isConsistent at h
    rw [hall] at h
    cases h
  obtain ⟨c, hcm, hcf⟩ := hex
  have hviol := isSatisfied_append_false c (hloc c hcm) A tail hcf
  unfold Csp.isConsistent
  cases hres : csp.cons.all (fun c2 => c2.isSatisfied (A ++ tail))
  · rfl
  · rw [List.all_eq_true] at hres
    rw [hres c hcm] at hviol
    cases hviol

theorem extensions_shape (csp : Csp T) :
    ∀ (rest : List (String × List T)) (A B : Assignment T),
      B ∈ extensions csp A rest →
      ∃ tail, B = A ++ tail ∧ tail.map Prod.fst = rest.map Prod.fst := by
  intro rest
  induction rest with
  | nil =>
    intro A B h
    simp only [extensions, List.mem_singleton] at h
    exact ⟨[], by simp [h], rfl⟩
  | cons vd rest ih =>
    obtain ⟨v, d⟩ := vd
    intro A B h
    simp only [extensions] at h
    rw [List.mem_flatMap] at h
    obtain ⟨x, hx, hB⟩ := h
    by_cases hc : csp.isConsistent (A ++ [(v, x)]) = true
    · rw [if_pos hc] at hB
      obtain ⟨tail, htail, hmap⟩ := ih _ _ hB
      refine ⟨(v, x) :: tail, ?_, ?_⟩
      · rw [htail, List.append_assoc]
        rfl
      · simp [hmap]
    · rw [if_neg hc] at hB
      cases hB

/-- The relation between an assignment entry and a domain entry: same
variable, value drawn from the domain. -/
def entryInDomain (p : String × T) (q : String × List T) : Prop :=
  p.1 = q.1 ∧ p.2 ∈ q.2

theorem forall₂_keys {B : Assignment T} {doms : List (String × List T)}
    (h : List.Forall₂ entryInDomain B doms) :
    B.map Prod.fst = doms.map Prod.fst := by
  induction h with
  | nil => rfl
  | cons hpq _ ih =>
    simp only [List.map_cons, ih, List.cons.injEq]
    exact ⟨hpq.1, trivial⟩

theorem extensions_mem (csp : Csp T)
    (hloc : ∀ c ∈ csp.cons, scopeLocal c) :
    ∀ (rest : List (String × List T)) (A : Assignment T),
      csp.isConsistent A = true →
      ∀ B, B ∈ extensions csp A rest ↔
        ∃ tail, B = A ++ tail ∧ List.Forall₂ entryInDomain tail rest ∧
          csp.isConsistent B = true := by
  intro rest
  induction rest with
  | nil =>
    intro A hA B
    simp only [extensions, List.mem_singleton]
    constructor
    · intro h
      subst h
      exact ⟨[], by simp, List.Forall₂.nil, hA⟩
    · rintro ⟨tail, hB, hf, -⟩
      cases hf
      rw [List.append_nil] at hB
      exact hB
  | cons vd rest ih =>
    obtain ⟨v, d⟩ := vd
    intro A hA B
    simp only [extensions]
    rw [List.mem_flatMap]
    constructor
    · rintro ⟨x, hx, hB⟩
      by_cases hc : csp.isConsistent (A ++ [(v, x)]) = true
      · rw [if_pos hc] at hB
        rw [ih (A ++ [(v, x)]) hc B] at hB
        obtain ⟨tail, hBt, hf, hcons⟩ := hB
        refine ⟨(v, x) :: tail, ?_, List.Forall₂.cons ⟨rfl, hx⟩ hf, hcons⟩
        rw [hBt, List.append_assoc]
        rfl
      · rw [if_neg hc] at hB
        cases hB
    · rintro ⟨tail, hB, hf, hcons⟩
      rw [List.forall₂_cons_right_iff] at hf
      obtain ⟨p, tail2, hpq, hf2, htail⟩ := hf
      subst htail
      obtain ⟨pv, px⟩ := p
      obtain ⟨hpv, hpx⟩ := hpq
      simp only [] at hpv
      subst hpv
      refine ⟨px, hpx, ?_⟩
      have hBeq : B = (A ++ [(pv, px)]) ++ tail2 := by
        rw [hB, List.append_assoc]
        rfl
      have hc : csp.isConsistent (A ++ [(pv, px)]) = true := by
        cases hcc : csp.isConsistent (A ++ [(pv, px)])
        · exfalso
          have hfalse := isConsistent_append_false csp hloc _ tail2 hcc
          rw [← hBeq, hcons] at hfalse
          cases hfalse
        · rfl
      rw [if_pos hc, ih (A ++ [(pv, px)]) hc B]
      exact ⟨tail2, hBeq, hf2, hcons⟩

theorem nodup_flatMap_disjoint :
    ∀ (l : List α) (f : α → List β), l.Nodup →
      (∀ a ∈ l, (f a).Nodup) →
      (∀ a1 ∈ l, ∀ a2 ∈ l, a1 ≠ a2 → ∀ b ∈ f a1, b ∉ f a2) →
      (l.flatMap f).Nodup := by
  intro l f
  induction l with
  | nil =>
    intro _ _ _
    simp
  | cons x xs ih =>
    intro hnd hf hdisj
    rw [List.nodup_cons] at hnd
    simp only [List.flatMap_cons]
    apply List.Nodup.append
    · exact hf x (List.mem_cons_self _ _)
    · exact ih hnd.2 (fun a ha => hf a (List.mem_cons_of_mem _ ha))
        (fun a1 h1 a2 h2 hne => hdisj a1 (List.mem_cons_of_mem _ h1)
          a2 (List.mem_cons_of_mem _ h2) hne)
    · intro b hb1 hb2
      rw [List.mem_flatMap] at hb2
      obtain ⟨a2, ha2, hb2⟩ := hb2
      have hxa : x ≠ a2 := by
        intro hh
        subst hh
        exact hnd.1 ha2
      exact hdisj x (List.mem_cons_self _ _) a2 (List.mem_cons_of_mem _ ha2)
        hxa b hb1 hb2

theorem extensions_nodup (csp : Csp T) :
    ∀ (rest : List (String × List T)) (A : Assignment T),
      (rest.map Prod.fst).Nodup → (∀ p ∈ rest, (p.2 : List T).Nodup) →
      (∀ p ∈ rest, (p.1 : String) ∉ A.keys) →
      (extensions csp A rest).Nodup := by
  intro rest
  induction rest with
  | nil =>
    intro A _ _ _
    simp [extensions]
  | cons vd rest ih =>
    obtain ⟨v, d⟩ := vd
    intro A hknd hdnd hfresh
    simp only [List.map_cons, List.nodup_cons] at hknd
    have hvA : v ∉ A.keys := hfresh (v, d) (List.mem_cons_self _ _)
    simp only [extensions]
    apply nodup_flatMap_disjoint
    · exact hdnd (v, d) (List.mem_cons_self _ _)
    · intro x _
      by_cases hc : csp.isConsistent (A ++ [(v, x)]) = true
      · rw [if_pos hc]
        apply ih
        · exact hknd.2
        · exact fun p hp => hdnd p (List.mem_cons_of_mem _ hp)
        · intro p hp
          rw [Assignment.keys_append_single]
          intro hmem
          rcases List.mem_append.mp hmem with hm | hm
          · exact hfresh p (List.mem_cons_of_mem _ hp) hm
          · rw [List.mem_singleton] at hm
            apply hknd.1
            rw [← hm]
            exact List.mem_map_of_mem Prod.fst hp
      · rw [if_neg hc]
        exact List.nodup_nil
    · intro x1 hx1 x2 hx2 hne B hB1 hB2
      have hget : ∀ x, B ∈ (if csp.isConsistent (A ++ [(v, x)]) = true then
          extensions csp (A ++ [(v, x)]) rest else []) →
          Assignment.get B v = some x := by
        intro x hB
        by_cases hc : csp.isConsistent (A ++ [(v, x)]) = true
        · rw [if_pos hc] at hB
          obtain ⟨tail, htail, -⟩ := extensions_shape csp rest _ B hB
          rw [htail, List.append_assoc]
          rw [Assignment.get_append_none A _ v
            (Assignment.get_eq_none_of_not_mem_keys A v hvA)]
          show Assignment.get ((v, x) :: tail) v = some x
          simp [Assignment.get]
        · rw [if_neg hc] at hB
          cases hB
      have h1 := hget x1 hB1
      have h2 := hget x2 hB2
      rw [h1] at h2
      injection h2 with h2
      exact hne h2

theorem distinct_maps :
    ∀ B1 B2 : Assignment T, B1.keys = B2.keys → B1.keys.Nodup →
      B1 ≠ B2 → ∃ u, Assignment.get B1 u ≠ Assignment.get B2 u := by
  intro B1
  induction B1 with
  | nil =>
    intro B2 hkeys _ hne
    cases B2 with
    | nil => exact absurd rfl hne
    | cons p B2 => cases hkeys
  | cons p B1 ih =>
    intro B2 hkeys hnd hne
    obtain ⟨v, x1⟩ := p
    cases B2 with
    | nil => cases hkeys
    | cons q B2 =>
      obtain ⟨w, x2⟩ := q
      simp only [Assignment.keys, List.map_cons, List.cons.injEq] at hkeys
      obtain ⟨hvw, htl⟩ := hkeys
      subst hvw
      by_cases hx : x1 = x2
      · subst hx
        have hne2 : B1 ≠ B2 := by
          intro hh
          apply hne
          rw [hh]
        simp only [Assignment.keys, List.map_cons, List.nodup_cons] at hnd
        obtain ⟨hvnot, hnd2⟩ := hnd
        obtain ⟨u, hu⟩ := ih B2 htl hnd2 hne2
        have humem : u ∈ B1.map Prod.fst := by
          by_contra hno
          apply hu
          rw [Assignment.get_eq_none_of_not_mem_keys B1 u hno,
            Assignment.get_eq_none_of_not_mem_keys B2 u
              (by show u ∉ List.map Prod.fst B2; rw [← htl]; exact hno)]
        have huv : v ≠ u := by
          intro hh
          subst hh
          exact hvnot humem
        refine ⟨u, ?_⟩
        show Assignment.get ((v, x1) :: B1) u ≠
          Assignment.get ((v, x1) :: B2) u
        simp only [Assignment.get, if_neg huv]
        exact hu
      · refine ⟨v, ?_⟩
        show Assignment.get ((v, x1) :: B1) v ≠
          Assignment.get ((v, x2) :: B2) v
        simp only [Assignment.get, if_pos rfl]
        intro hh
        injection hh with hh
        exact hx hh

/-- Claim C2 (amended): on a Csp with duplicate-free variable names,
duplicate-free domains and scope-local predicates whose scopes are
nonempty, find_all_backtracking (find_all_solutions under
first_unassigned and domain_order) returns, within fuel num_variables + 1,
exactly the canonical complete consistent assignments: the list has no
duplicates, pairwise distinct as mappings, and contains an assignment iff
it maps each registered variable, in registration order, to a value of
its domain and satisfies every constraint. -/
theorem find_all_backtracking_complete (csp : Csp T)
    (hvars : csp.getVariables.Nodup)
    (hdoms : ∀ p ∈ csp.doms, (p.2 : List T).Nodup)
    (hloc : ∀ c ∈ csp.cons, scopeLocal c)
    (hne : ∀ c ∈ csp.cons, c.scope ≠ []) :
    ∃ S, find_all_backtracking csp (csp.numVariables + 1) = some S ∧
      S.Nodup ∧
      (∀ B, B ∈ S ↔ (List.Forall₂ entryInDomain B csp.doms ∧
        csp.isConsistent B = true)) ∧
      S.Pairwise (fun B1 B2 => ∃ u,
        Assignment.get B1 u ≠ Assignment.get B2 u) := by
  refine ⟨extensions csp Assignment.empty csp.doms, ?_, ?_, ?_, ?_⟩
  · unfold find_all_backtracking find_all_solutions
    have hrun := backtrack_enum csp hvars csp.doms [] rfl Assignment.empty []
      rfl
    unfold Csp.numVariables
    rw [hrun]
    rfl
  · exact extensions_nodup csp csp.doms Assignment.empty hvars hdoms
      (fun p _ => by intro h; cases h)
  · intro B
    rw [extensions_mem csp hloc csp.doms Assignment.empty
      (isConsistent_empty csp hne) B]
    constructor
    · rintro ⟨tail, hB, hf, hcons⟩
      rw [hB]
      exact ⟨hf, by rw [← hB]; exact hcons⟩
    · rintro ⟨hf, hcons⟩
      exact ⟨B, rfl, hf, hcons⟩
  · have hnd := extensions_nodup csp csp.doms Assignment.empty hvars hdoms
      (fun p _ => by intro h; cases h)
    apply List.Pairwise.imp_of_mem ?_ hnd
    intro B1 B2 h1 h2 hne12
    have hk1 : B1.keys = csp.doms.map Prod.fst := by
      obtain ⟨tail, ht, hm⟩ := extensions_shape csp csp.doms _ _ h1
      rw [ht]
      exact hm
    have hk2 : B2.keys = csp.doms.map Prod.fst := by
      obtain ⟨tail, ht, hm⟩ := extensions_shape csp csp.doms _ _ h2
      rw [ht]
      exact hm
    exact distinct_maps B1 B2 (by rw [hk1, hk2]) (by rw [hk1]; exact hvars)
      hne12

/-- The concrete Csp of the C2 witness: one variable with domain 0, 1 and
a scope-local constraint forcing the value 1. -/
def w2csp : Csp Nat :=
  ⟨[("a", [0, 1])],
   [⟨"c", ["a"], fun A => decide (Assignment.get A "a" = some 1)⟩]⟩

/-- Witness for C2 at the concrete Csp: the run returns the single
solution list, which the completeness theorem certifies: it is exactly
the computed list and its sole member is consistent. -/
theorem find_all_backtracking_complete_witness :
    find_all_backtracking w2csp 2 = some [[("a", 1)]] ∧
    w2csp.isConsistent [("a", 1)] = true := by
  have hcomp : find_all_backtracking w2csp 2 = some [[("a", 1)]] := by decide
  obtain ⟨S, h1, h2, h3, h4⟩ := find_all_backtracking_complete w2csp
    (by decide) (by decide)
    (by
      intro c hc
      rcases List.mem_singleton.mp hc with rfl
      intro A B h
      simp only []
      rw [h "a" (List.mem_singleton.mpr rfl)])
    (by
      intro c hc
      rcases List.mem_singleton.mp hc with rfl
      exact List.cons_ne_nil _ _)
  have hfuel : w2csp.numVariables + 1 = 2 := rfl
  rw [hfuel, hcomp] at h1
  injection h1 with h1
  refine ⟨hcomp, ?_⟩
  have hmem : [("a", 1)] ∈ S := by
    rw [← h1]
    exact List.mem_singleton.mpr rfl
  exact ((h3 [("a", 1)]).mp hmem).2

/-- Counterexample to claim C2 as stated: a Csp whose VecDomain-style
domain holds the value 0 twice makes find_all_backtracking report the
same solution twice, so the returned list has duplicate assignments and
its length exceeds the count of distinct solutions. -/
theorem find_all_backtracking_duplicates :
    find_all_backtracking (⟨[("a", [0, 0])], []⟩ : Csp Nat) 2 =
      some [[("a", 0)], [("a", 0)]] ∧
    ¬ ([[("a", 0)], [("a", 0)]] : List (Assignment Nat)).Nodup := by
  exact ⟨by decide, by decide⟩

end ClaimC2

section ClaimC9

/-- The two-variable test assignment revise builds: assign the first
variable, then the second (overwriting when they coincide, as the hash
map does). -/
def pairAssign (xi xj : String) (a b : T) : Assignment T :=
  (Assignment.empty.assign xi a).assign xj b

theorem pairAssign_eq (xi xj : String) (a b : T) (h : xi ≠ xj) :
    pairAssign xi xj a b = [(xi, a), (xj, b)] := by
  unfold pairAssign
  have h1 : (Assignment.empty.assign xi a : Assignment T) = [(xi, a)] := rfl
  rw [h1]
  unfold Assignment.assign
  have h2 : Assignment.isAssigned [(xi, a)] xj = false := by
    unfold Assignment.isAssigned
    simp only [Assignment.get]
    rw [if_neg h]
    rfl
  rw [h2]
  simp

theorem get_pairAssign (xi xj : String) (a b : T) (h : xi ≠ xj)
    (u : String) :
    Assignment.get (pairAssign xi xj a b) u =
      if u = xi then some a else if u = xj then some b else none := by
  rw [pairAssign_eq xi xj a b h]
  simp only [Assignment.get]
  by_cases h1 : u = xi
  · rw [if_pos h1.symm, if_pos h1]
  · rw [if_neg (fun hh => h1 hh.symm), if_neg h1]
    by_cases h2 : u = xj
    · rw [if_pos h2.symm, if_pos h2]
    · rw [if_neg (fun hh => h2 hh.symm), if_neg h2]

theorem sat_pairAssign_swap (c : Constraint T) (hc : scopeLocal c)
    (xi xj : String) (a b : T) (h : xi ≠ xj) :
    c.isSatisfied (pairAssign xi xj a b) =
      c.isSatisfied (pairAssign xj xi b a) := by
  apply isSatisfied_of_get_eq c hc
  intro u _
  rw [get_pairAssign xi xj a b h u, get_pairAssign xj xi b a (Ne.symm h) u]
  by_cases h1 : u = xi
  · rw [if_pos h1, if_pos h1, if_neg (by rw [h1]; exact h)]
  · rw [if_neg h1, if_neg h1]

theorem lookupD_insertD_ne (doms : List (String × List T)) (k k2 : String)
    (d : List T) (h : k2 ≠ k) :
    lookupD (insertD doms k d) k2 = lookupD doms k2 := by
  induction doms with
  | nil =>
    simp only [insertD, lookupD]
    rw [if_neg (fun hh => h hh.symm)]
  | cons p rest ih =>
    obtain ⟨u, d0⟩ := p
    by_cases hu : u = k
    · simp only [insertD, if_pos hu, lookupD]
      subst hu
      rw [if_neg (fun hh => h hh.symm), if_neg (fun hh => h hh.symm)]
    · simp only [insertD, if_neg hu, lookupD]
      by_cases hu2 : u = k2
      · rw [if_pos hu2, if_pos hu2]
      · rw [if_neg hu2, if_neg hu2]
        exact ih

theorem mem_insertD (doms : List (String × List T)) (k : String)
    (d : List T) (p : String × List T) (h : p ∈ insertD doms k d) :
    p = (k, d) ∨ p ∈ doms := by
  induction doms with
  | nil =>
    simp only [insertD, List.mem_singleton] at h
    exact Or.inl h
  | cons q rest ih =>
    obtain ⟨u, d0⟩ := q
    by_cases hu : u = k
    · simp only [insertD, if_pos hu] at h
      rcases List.mem_cons.mp h with h | h
      · subst hu
        exact Or.inl h
      · exact Or.inr (List.mem_cons_of_mem _ h)
    · simp only [insertD, if_neg hu] at h
      rcases List.mem_cons.mp h with h | h
      · exact Or.inr (by rw [h]; exact List.mem_cons_self _ _)
      · rcases ih h with h | h
        · exact Or.inl h
        · exact Or.inr (List.mem_cons_of_mem _ h)

theorem lookupD_mem_of_ne_nil (doms : List (String × List T)) (k : String)
    (h : lookupD doms k ≠ []) : (k, lookupD doms k) ∈ doms := by
  induction doms with
  | nil => exact absurd rfl h
  | cons p rest ih =>
    obtain ⟨u, d0⟩ := p
    simp only [lookupD] at h ⊢
    by_cases hu : u = k
    · rw [if_pos hu] at h ⊢
      subst hu
      exact List.mem_cons_self _ _
    · rw [if_neg hu] at h ⊢
      exact List.mem_cons_of_mem _ (ih h)

theorem lookupD_of_mem_nodup (doms : List (String × List T))
    (hnd : (doms.map Prod.fst).Nodup) (p : String × List T) (h : p ∈ doms) :
    lookupD doms p.1 = p.2 := by
  induction doms with
  | nil => cases h
  | cons q rest ih =>
    obtain ⟨u, d0⟩ := q
    simp only [List.map_cons, List.nodup_cons] at hnd
    rcases List.mem_cons.mp h with h | h
    · rw [h]
      simp [lookupD]
    · simp only [lookupD]
      rw [if_neg]
      · exact ih hnd.2 h
      · intro hh
        apply hnd.1
        rw [hh]
        exact List.mem_map_of_mem Prod.fst h

/-- Whether an assignment draws, for every entry of the domain map, a
value of that entry's domain. -/
def valuesIn (doms : List (String × List T)) (A : Assignment T) : Prop :=
  ∀ p ∈ doms, ∃ x, Assignment.get A p.1 = some x ∧ x ∈ p.2

/-- A complete consistent assignment of the Csp drawing its values from
the given domain map. -/
def solutionWithin (csp : Csp T) (doms : List (String × List T))
    (A : Assignment T) : Prop :=
  csp.isSolution A = true ∧ valuesIn doms A

/-- The values of a consistent assignment always pass the support test of
revise: the assignment's own value for the second variable supports its
value for the first. -/
theorem reviseSupport_of_solution (csp : Csp T) (c : Constraint T)
    (hmem : c ∈ csp.cons) (hc : scopeLocal c) (A : Assignment T)
    (hcons : csp.isConsistent A = true)
    (xi xj : String) (a b : T)
    (hga : Assignment.get A xi = some a) (hgb : Assignment.get A xj = some b) :
    c.isSatisfied (pairAssign xi xj a b) = true := by
  have hgets : ∀ u y, Assignment.get (pairAssign xi xj a b) u = some y →
      Assignment.get A u = some y := by
    intro u y hy
    by_cases hij : xi = xj
    · subst hij
      have hpair : (pairAssign xi xi a b : Assignment T) = [(xi, b)] := by
        unfold pairAssign
        have h1 : (Assignment.empty.assign xi a : Assignment T) = [(xi, a)] :=
          rfl
        rw [h1]
        unfold Assignment.assign
        have h2 : Assignment.isAssigned [(xi, a)] xi = true := by
          unfold Assignment.isAssigned
          simp [Assignment.get]
        rw [h2]
        simp
      rw [hpair] at hy
      simp only [Assignment.get] at hy
      by_cases hu : xi = u
      · rw [if_pos hu] at hy
        injection hy with hy
        subst hy
        rw [← hu]
        exact hgb
      · rw [if_neg hu] at hy
        cases hy
    · rw [get_pairAssign xi xj a b hij u] at hy
      by_cases h1 : u = xi
      · rw [if_pos h1] at hy
        injection hy with hy
        subst hy
        rw [h1]
        exact hga
      · rw [if_neg h1] at hy
        by_cases h2 : u = xj
        · rw [if_pos h2] at hy
          injection hy with hy
          subst hy
          rw [h2]
          exact hgb
        · rw [if_neg h2] at hy
          cases hy
  unfold Constraint.isSatisfied
  by_cases hall : c.scope.all
      (fun u => (pairAssign xi xj a b).isAssigned u) = true
  · rw [if_pos hall]
    rw [List.all_eq_true] at hall
    have hgeteq : ∀ u ∈ c.scope,
        Assignment.get (pairAssign xi xj a b) u = Assignment.get A u := by
      intro u hu
      have := hall u hu
      unfold Assignment.isAssigned at this
      obtain ⟨y, hy⟩ := Option.isSome_iff_exists.mp this
      rw [hy, hgets u y hy]
    rw [hc _ A hgeteq]
    have hallA : c.scope.all (fun u => A.isAssigned u) = true := by
      rw [List.all_eq_true]
      intro u hu
      unfold Assignment.isAssigned
      rw [← hgeteq u hu]
      exact hall u hu
    unfold Csp.isConsistent at hcons
    rw [List.all_eq_true] at hcons
    have := hcons c hmem
    unfold Constraint.isSatisfied at this
    rw [if_pos hallA] at this
    exact this
  · rw [if_neg hall]

/-- Running the worklist never removes a value used by a solution: every
domain-map entry after a successful ac3 run still contains the
assignment's value. -/
theorem ac3_preserves_solution (csp : Csp T)
    (hloc : ∀ c ∈ csp.cons, scopeLocal c) (A : Assignment T)
    (hcons : csp.isConsistent A = true) :
    ∀ (fuel : Nat) (Q : List (Arc T)) (doms doms' : List (String × List T)),
      (∀ arc ∈ Q, (arc.2.2 : Constraint T) ∈ csp.cons) →
      ac3 csp fuel Q doms = some (true, doms') →
      valuesIn doms A → valuesIn doms' A := by
  intro fuel
  induction fuel with
  | zero =>
    intro Q doms doms' _ h _
    simp only [ac3] at h
    cases h
  | succ fuel ih =>
    intro Q doms doms' hQ h hA
    cases Q with
    | nil =>
      simp only [ac3] at h
      injection h with h
      obtain ⟨-, h2⟩ := Prod.mk.injEq .. ▸ h
      rw [← h2]
      exact hA
    | cons arc rest =>
      obtain ⟨xi, xj, c⟩ := arc
      simp only [ac3] at h
      cases hr : (revise doms xi xj c).1 with
      | false =>
        rw [hr] at h
        simp only [Bool.false_eq_true, if_false] at h
        exact ih rest doms doms' (fun a ha => hQ a (List.mem_cons_of_mem _ ha))
          h hA
      | true =>
        rw [hr] at h
        simp only [if_true] at h
        by_cases hemp : ((lookupD (revise doms xi xj c).2 xi).isEmpty : Bool)
            = true
        · rw [if_pos hemp] at h
          injection h with h
          obtain ⟨h1, -⟩ := Prod.mk.injEq .. ▸ h
          cases h1
        · rw [if_neg hemp] at h
          refine ih _ _ _ ?_ h ?_
          · intro a ha
            rcases List.mem_append.mp ha with ha | ha
            · exact hQ a (List.mem_cons_of_mem _ ha)
            · unfold newArcs at ha
              rw [List.mem_flatMap] at ha
              obtain ⟨c2, hc2, ha⟩ := ha
              rw [List.mem_map] at ha
              obtain ⟨u, -, hu⟩ := ha
              rw [← hu]
              exact List.mem_of_mem_filter hc2
          · -- values preserved through the revision
            have hcmem : c ∈ csp.cons := hQ _ (List.mem_cons_self _ _)
            rw [revise_eq] at hr hemp ⊢
            by_cases hall : (lookupD doms xi).all
                (reviseSupport doms xi xj c) = true
            · rw [if_pos hall] at hr
              cases hr
            · rw [if_neg hall]
              simp only []
              intro p hp
              rcases mem_insertD _ _ _ p hp with hpk | hpd
              · subst hpk
                simp only []
                have hdine : lookupD doms xi ≠ [] := by
                  intro hnil
                  apply hall
                  rw [hnil]
                  rfl
                obtain ⟨a, hga, hain⟩ := hA (xi, lookupD doms xi)
                  (lookupD_mem_of_ne_nil doms xi hdine)
                refine ⟨a, hga, ?_⟩
                rw [List.mem_filter]
                refine ⟨hain, ?_⟩
                rw [if_neg hall] at hemp
                simp only [] at hemp
                rw [lookupD_insertD_self] at hemp
                have hfil : (lookupD doms xi).filter
                    (reviseSupport doms xi xj c) ≠ [] := by
                  intro hnil
                  apply hemp
                  rw [hnil]
                  rfl
                obtain ⟨a1, ha1⟩ := List.exists_mem_of_ne_nil _ hfil
                have hsup1 : reviseSupport doms xi xj c a1 = true :=
                  (List.mem_filter.mp ha1).2
                unfold reviseSupport at hsup1
                rw [List.any_eq_true] at hsup1
                obtain ⟨b1, hb1, -⟩ := hsup1
                have hdjne : lookupD doms xj ≠ [] := by
                  intro hnil
                  rw [hnil] at hb1
                  cases hb1
                obtain ⟨b, hgb, hbin⟩ := hA (xj, lookupD doms xj)
                  (lookupD_mem_of_ne_nil doms xj hdjne)
                unfold reviseSupport
                rw [List.any_eq_true]
                exact ⟨b, hbin, reviseSupport_of_solution csp c hcmem
                  (hloc c hcmem) A hcons xi xj a b hga hgb⟩
              · exact hA p hpd

theorem insertD_keys_of_mem (doms : List (String × List T)) (k : String)
    (d : List T) (h : k ∈ doms.map Prod.fst) :
    (insertD doms k d).map Prod.fst = doms.map Prod.fst := by
  induction doms with
  | nil => cases h
  | cons p rest ih =>
    obtain ⟨u, d0⟩ := p
    by_cases hu : u = k
    · simp only [insertD, if_pos hu, List.map_cons]
    · simp only [insertD, if_neg hu, List.map_cons]
      simp only [List.map_cons, List.mem_cons] at h
      rcases h with h | h
      · exact absurd h.symm hu
      · rw [ih h]

theorem revise_keys (doms : List (String × List T)) (xi xj : String)
    (c : Constraint T) :
    ((revise doms xi xj c).2).map Prod.fst = doms.map Prod.fst := by
  rw [revise_eq]
  by_cases hall : (lookupD doms xi).all (reviseSupport doms xi xj c) = true
  · rw [if_pos hall]
  · rw [if_neg hall]
    simp only []
    apply insertD_keys_of_mem
    apply lookupD_ne_nil_mem
    intro hnil
    apply hall
    rw [hnil]
    rfl

theorem revise_subset (doms : List (String × List T)) (xi xj : String)
    (c : Constraint T) (k : String) (x : T)
    (h : x ∈ lookupD (revise doms xi xj c).2 k) : x ∈ lookupD doms k := by
  rw [revise_eq] at h
  by_cases hall : (lookupD doms xi).all (reviseSupport doms xi xj c) = true
  · rw [if_pos hall] at h
    exact h
  · rw [if_neg hall] at h
    simp only [] at h
    by_cases hk : k = xi
    · subst hk
      rw [lookupD_insertD_self] at h
      exact (List.mem_filter.mp h).1
    · rw [lookupD_insertD_ne doms xi k _ hk] at h
      exact h

theorem ac3_keys (csp : Csp T) :
    ∀ (fuel : Nat) (Q : List (Arc T)) (doms doms' : List (String × List T))
      (b : Bool), ac3 csp fuel Q doms = some (b, doms') →
      doms'.map Prod.fst = doms.map Prod.fst := by
  intro fuel
  induction fuel with
  | zero =>
    intro Q doms doms' b h
    simp only [ac3] at h
    cases h
  | succ fuel ih =>
    intro Q doms doms' b h
    cases Q with
    | nil =>
      simp only [ac3] at h
      injection h with h
      obtain ⟨-, h2⟩ := Prod.mk.injEq .. ▸ h
      rw [← h2]
    | cons arc rest =>
      obtain ⟨xi, xj, c⟩ := arc
      simp only [ac3] at h
      cases hr : (revise doms xi xj c).1 with
      | false =>
        rw [hr] at h
        simp only [Bool.false_eq_true, if_false] at h
        exact ih rest doms doms' b h
      | true =>
        rw [hr] at h
        simp only [if_true] at h
        by_cases hemp : ((lookupD (revise doms xi xj c).2 xi).isEmpty : Bool)
            = true
        · rw [if_pos hemp] at h
          injection h with h
          obtain ⟨-, h2⟩ := Prod.mk.injEq .. ▸ h
          rw [← h2]
          exact revise_keys doms xi xj c
        · rw [if_neg hemp] at h
          rw [ih _ _ _ b h]
          exact revise_keys doms xi xj c

theorem ac3_subset (csp : Csp T) :
    ∀ (fuel : Nat) (Q : List (Arc T)) (doms doms' : List (String × List T))
      (b : Bool), ac3 csp fuel Q doms = some (b, doms') →
      ∀ (k : String) (x : T), x ∈ lookupD doms' k → x ∈ lookupD doms k := by
  intro fuel
  induction fuel with
  | zero =>
    intro Q doms doms' b h
    simp only [ac3] at h
    cases h
  | succ fuel ih =>
    intro Q doms doms' b h
    cases Q with
    | nil =>
      simp only [ac3] at h
      injection h with h
      obtain ⟨-, h2⟩ := Prod.mk.injEq .. ▸ h
      rw [← h2]
      exact fun k x hx => hx
    | cons arc rest =>
      obtain ⟨xi, xj, c⟩ := arc
      simp only [ac3] at h
      cases hr : (revise doms xi xj c).1 with
      | false =>
        rw [hr] at h
        simp only [Bool.false_eq_true, if_false] at h
        exact ih rest doms doms' b h
      | true =>
        rw [hr] at h
        simp only [if_true] at h
        by_cases hemp : ((lookupD (revise doms xi xj c).2 xi).isEmpty : Bool)
            = true
        · rw [if_pos hemp] at h
          injection h with h
          obtain ⟨-, h2⟩ := Prod.mk.injEq .. ▸ h
          rw [← h2]
          exact fun k x hx => revise_subset doms xi xj c k x hx
        · rw [if_neg hemp] at h
          intro k x hx
          exact revise_subset doms xi xj c k x (ih _ _ _ b h k x hx)

theorem mem_of_key (doms : List (String × List T)) (k : String)
    (h : k ∈ doms.map Prod.fst) : (k, lookupD doms k) ∈ doms := by
  induction doms with
  | nil => cases h
  | cons p rest ih =>
    obtain ⟨u, d0⟩ := p
    simp only [lookupD]
    by_cases hu : u = k
    · rw [if_pos hu]
      subst hu
      exact List.mem_cons_self _ _
    · rw [if_neg hu]
      simp only [List.map_cons, List.mem_cons] at h
      rcases h with h | h
      · exact absurd h.symm hu
      · exact List.mem_cons_of_mem _ (ih h)

theorem binaryArcs_cons (csp : Csp T) :
    ∀ arc ∈ binaryArcs csp, (arc.2.2 : Constraint T) ∈ csp.cons := by
  intro arc h
  unfold binaryArcs at h
  rw [List.mem_flatMap] at h
  obtain ⟨c, hc, harc⟩ := h
  rcases hsc : c.scope with _ | ⟨a, _ | ⟨b, _ | ⟨e, r⟩⟩⟩ <;> rw [hsc] at harc
  · cases harc
  · cases harc
  · rcases List.mem_cons.mp harc with h | h
    · rw [h]
      exact hc
    · rcases List.mem_singleton.mp h with rfl
      exact hc
  · cases harc

/-- An ac3 preprocessing run that succeeds leaves the solution set
unchanged: an assignment is a complete consistent assignment drawing
values from the pruned domains iff it is one drawing values from the
original domains. -/
theorem ac3_solution_set (csp : Csp T)
    (hloc : ∀ c ∈ csp.cons, scopeLocal c)
    (hvars : csp.getVariables.Nodup) :
    ∀ (fuel : Nat) (doms' : List (String × List T)),
      ac3 csp fuel (binaryArcs csp) csp.doms = some (true, doms') →
      ∀ A, solutionWithin csp doms' A ↔ solutionWithin csp csp.doms A := by
  intro fuel doms' hrun A
  constructor
  · rintro ⟨hsol, hvals⟩
    refine ⟨hsol, ?_⟩
    intro p hp
    have hkeys := ac3_keys csp fuel _ _ _ true hrun
    have hk : p.1 ∈ doms'.map Prod.fst := by
      rw [hkeys]
      exact List.mem_map_of_mem Prod.fst hp
    obtain ⟨x, hgx, hxin⟩ := hvals (p.1, lookupD doms' p.1) (mem_of_key _ _ hk)
    refine ⟨x, hgx, ?_⟩
    have hsub := ac3_subset csp fuel _ _ _ true hrun p.1 x hxin
    rw [lookupD_of_mem_nodup csp.doms hvars p hp] at hsub
    exact hsub
  · rintro ⟨hsol, hvals⟩
    refine ⟨hsol, ?_⟩
    have hcons : csp.isConsistent A = true := by
      unfold Csp.isSolution at hsol
      rw [Bool.and_eq_true] at hsol
      exact hsol.2
    exact ac3_preserves_solution csp hloc A hcons fuel _ _ _
      (binaryArcs_cons csp) hrun hvals

theorem involves_mem (c : Constraint T) (v : String)
    (h : c.involves v = true) : v ∈ c.scope := by
  by_contra hn
  rw [← not_involved_iff c v] at hn
  rw [hn] at h
  cases h

theorem mem_involves (c : Constraint T) (v : String) (h : v ∈ c.scope) :
    c.involves v = true := by
  cases hi : c.involves v
  · exact absurd h ((not_involved_iff c v).mp hi)
  · rfl

theorem isAssigned_pairAssign (xi xj : String) (a b : T) (u : String)
    (h : Assignment.isAssigned (pairAssign xi xj a b) u = true) :
    u = xi ∨ u = xj := by
  unfold pairAssign Assignment.isAssigned at h
  rw [Assignment.get_assign] at h
  by_cases hj : u = xj
  · exact Or.inr hj
  · rw [if_neg hj, Assignment.get_assign] at h
    by_cases hi : u = xi
    · exact Or.inl hi
    · rw [if_neg hi] at h
      simp [Assignment.empty, Assignment.get] at h

theorem isSatisfied_false_scope (c : Constraint T) (A : Assignment T)
    (h : c.isSatisfied A = false) :
    ∀ w ∈ c.scope, A.isAssigned w = true := by
  unfold Constraint.isSatisfied at h
  by_cases hall : (c.scope.all fun v => A.isAssigned v) = true
  · rw [List.all_eq_true] at hall
    exact hall
  · rw [if_neg hall] at h
    cases h

/-- Arc consistency of one directed arc over a domain map: each value of
the first variable is supported by some value of the second under the
constraint. -/
def supported (doms : List (String × List T)) (xi xj : String)
    (c : Constraint T) : Prop :=
  ∀ a ∈ lookupD doms xi, ∃ b ∈ lookupD doms xj,
    c.isSatisfied (pairAssign xi xj a b) = true

theorem lookupD_revise_ne (doms : List (String × List T)) (xi xj : String)
    (c : Constraint T) (k : String) (h : k ≠ xi) :
    lookupD (revise doms xi xj c).2 k = lookupD doms k := by
  rw [revise_eq]
  by_cases hall : (lookupD doms xi).all (reviseSupport doms xi xj c) = true
  · rw [if_pos hall]
  · rw [if_neg hall]
    simp only []
    exact lookupD_insertD_ne doms xi k _ h

theorem lookupD_revise_self (doms : List (String × List T)) (xi xj : String)
    (c : Constraint T) (hr : (revise doms xi xj c).1 = true) :
    lookupD (revise doms xi xj c).2 xi =
      (lookupD doms xi).filter (reviseSupport doms xi xj c) := by
  rw [revise_eq] at hr ⊢
  by_cases hall : (lookupD doms xi).all (reviseSupport doms xi xj c) = true
  · rw [if_pos hall] at hr
    cases hr
  · rw [if_neg hall]
    simp only []
    exact lookupD_insertD_self doms xi _

theorem revise_false_supported (doms : List (String × List T))
    (xi xj : String) (c : Constraint T)
    (h : (revise doms xi xj c).1 = false) : supported doms xi xj c := by
  rw [revise_eq] at h
  by_cases hall : (lookupD doms xi).all (reviseSupport doms xi xj c) = true
  · intro a ha
    rw [List.all_eq_true] at hall
    have hs := hall a ha
    unfold reviseSupport at hs
    rw [List.any_eq_true] at hs
    obtain ⟨b, hb, hsat⟩ := hs
    exact ⟨b, hb, hsat⟩
  · rw [if_neg hall] at h
    cases h

theorem revise_true_supported (doms : List (String × List T))
    (xi xj : String) (c : Constraint T)
    (hr : (revise doms xi xj c).1 = true) (h : xj ≠ xi) :
    supported (revise doms xi xj c).2 xi xj c := by
  intro a ha
  rw [lookupD_revise_self doms xi xj c hr] at ha
  have hs := (List.mem_filter.mp ha).2
  unfold reviseSupport at hs
  rw [List.any_eq_true] at hs
  obtain ⟨b, hb, hsat⟩ := hs
  refine ⟨b, ?_, hsat⟩
  rw [lookupD_revise_ne doms xi xj c xj h]
  exact hb

theorem revise_true_scope_sub (doms : List (String × List T))
    (xi xj : String) (c : Constraint T)
    (hr : (revise doms xi xj c).1 = true)
    (hne : lookupD (revise doms xi xj c).2 xi ≠ []) :
    ∀ w ∈ c.scope, w = xi ∨ w = xj := by
  have hall : ¬((lookupD doms xi).all (reviseSupport doms xi xj c) = true) := by
    intro hall
    rw [revise_eq, if_pos hall] at hr
    cases hr
  rw [List.all_eq_true] at hall
  push_neg at hall
  obtain ⟨a0, ha0, hs0⟩ := hall
  rw [lookupD_revise_self doms xi xj c hr] at hne
  obtain ⟨a1, ha1⟩ := List.exists_mem_of_ne_nil _ hne
  have hs1 := (List.mem_filter.mp ha1).2
  unfold reviseSupport at hs1
  rw [List.any_eq_true] at hs1
  obtain ⟨b0, hb0, -⟩ := hs1
  have hsat : c.isSatisfied (pairAssign xi xj a0 b0) = false := by
    cases hsat : c.isSatisfied (pairAssign xi xj a0 b0)
    · rfl
    · exfalso
      have hgood : reviseSupport doms xi xj c a0 = true := by
        unfold reviseSupport
        rw [List.any_eq_true]
        exact ⟨b0, hb0, hsat⟩
      exact hs0 hgood
  intro w hw
  exact isAssigned_pairAssign xi xj a0 b0 w
    (isSatisfied_false_scope c _ hsat w hw)

theorem scope_pair (l : List String) (hnd : l.Nodup) (xi xj : String)
    (hxi : xi ∈ l) (hxj : xj ∈ l) (hne : xi ≠ xj)
    (hsub : ∀ w ∈ l, w = xi ∨ w = xj) : l = [xi, xj] ∨ l = [xj, xi] := by
  cases l with
  | nil => cases hxi
  | cons a t =>
    cases t with
    | nil =>
      rw [List.mem_singleton] at hxi hxj
      exact absurd (hxi.trans hxj.symm) hne
    | cons b r =>
      cases r with
      | nil =>
        have h1 := (List.nodup_cons.mp hnd).1
        have hab : a ≠ b := fun he => h1 (by rw [he]; exact List.mem_cons_self _ _)
        rcases hsub a (List.mem_cons_self _ _) with ha | ha <;>
          rcases hsub b (List.mem_cons_of_mem _ (List.mem_cons_self _ _))
            with hb | hb
        · exact absurd (ha.trans hb.symm) hab
        · left
          rw [ha, hb]
        · right
          rw [ha, hb]
        · exact absurd (ha.trans hb.symm) hab
      | cons e r2 =>
        exfalso
        have h1 := List.nodup_cons.mp hnd
        have h2 := List.nodup_cons.mp h1.2
        have hab : a ≠ b := fun he => h1.1 (by rw [he]; exact List.mem_cons_self _ _)
        have hae : a ≠ e := fun he => h1.1
          (by rw [he]; exact List.mem_cons_of_mem _ (List.mem_cons_self _ _))
        have hbe : b ≠ e := fun he => h2.1 (by rw [he]; exact List.mem_cons_self _ _)
        rcases hsub a (List.mem_cons_self _ _) with ha | ha <;>
          rcases hsub b (List.mem_cons_of_mem _ (List.mem_cons_self _ _))
            with hb | hb <;>
          rcases hsub e (List.mem_cons_of_mem _
            (List.mem_cons_of_mem _ (List.mem_cons_self _ _))) with he2 | he2 <;>
          first
          | exact hab (ha.trans hb.symm)
          | exact hae (ha.trans he2.symm)
          | exact hbe (hb.trans he2.symm)

theorem mem_newArcs (csp : Csp T) (xi xj u : String) (c : Constraint T)
    (hc : c ∈ csp.cons) (hxi : xi ∈ c.scope) (hu : u ∈ c.scope)
    (hui : u ≠ xi) (huj : u ≠ xj) : (u, xi, c) ∈ newArcs csp xi xj := by
  unfold newArcs
  rw [List.mem_flatMap]
  refine ⟨c, ?_, ?_⟩
  · unfold Csp.constraintsFor
    rw [List.mem_filter]
    exact ⟨hc, mem_involves c xi hxi⟩
  · rw [List.mem_map]
    refine ⟨u, ?_, rfl⟩
    rw [List.mem_filter]
    refine ⟨hu, ?_⟩
    simp [hui, huj]

/-- Every arc the algorithm handles points at a registered constraint and
joins two distinct variables of its scope. -/
def arcWF (csp : Csp T) (Q : List (Arc T)) : Prop :=
  ∀ arc ∈ Q, (arc.2.2 : Constraint T) ∈ csp.cons ∧
    arc.1 ∈ (arc.2.2 : Constraint T).scope ∧
    arc.2.1 ∈ (arc.2.2 : Constraint T).scope ∧ arc.1 ≠ arc.2.1

/-- The worklist invariant: every binary constraint is either still queued
towards its endpoint or already arc consistent there. -/
def arcINV (csp : Csp T) (Q : List (Arc T))
    (doms : List (String × List T)) : Prop :=
  ∀ c ∈ csp.cons, ∀ u v : String, (c.scope = [u, v] ∨ c.scope = [v, u]) →
    (u, v, c) ∈ Q ∨ supported doms u v c

theorem newArcs_wf (csp : Csp T) (xi xj : String) :
    ∀ arc ∈ newArcs csp xi xj, (arc.2.2 : Constraint T) ∈ csp.cons ∧
      arc.1 ∈ (arc.2.2 : Constraint T).scope ∧
      arc.2.1 ∈ (arc.2.2 : Constraint T).scope ∧ arc.1 ≠ arc.2.1 := by
  intro arc h
  unfold newArcs at h
  rw [List.mem_flatMap] at h
  obtain ⟨c, hc, harc⟩ := h
  rw [List.mem_map] at harc
  obtain ⟨u, hu, harc⟩ := harc
  rw [List.mem_filter] at hu
  obtain ⟨huscope, hcond⟩ := hu
  rw [Bool.and_eq_true, decide_eq_true_iff, decide_eq_true_iff] at hcond
  unfold Csp.constraintsFor at hc
  rw [List.mem_filter] at hc
  subst harc
  exact ⟨hc.1, huscope, involves_mem c xi hc.2, hcond.1⟩

theorem binaryArcs_mem (csp : Csp T) (c : Constraint T) (hc : c ∈ csp.cons)
    (u v : String) (h : c.scope = [u, v]) :
    (u, v, c) ∈ binaryArcs csp ∧ (v, u, c) ∈ binaryArcs csp := by
  constructor <;>
  · unfold binaryArcs
    rw [List.mem_flatMap]
    refine ⟨c, hc, ?_⟩
    rw [h]
    simp

theorem binaryArcs_wf (csp : Csp T)
    (hscnd : ∀ c ∈ csp.cons, c.scope.Nodup) :
    arcWF csp (binaryArcs csp) := by
  intro arc h
  unfold binaryArcs at h
  rw [List.mem_flatMap] at h
  obtain ⟨c, hc, harc⟩ := h
  rcases hsc : c.scope with _ | ⟨a, _ | ⟨b, _ | ⟨e, r⟩⟩⟩ <;> rw [hsc] at harc
  · cases harc
  · cases harc
  · have hnd := hscnd c hc
    rw [hsc] at hnd
    have h1 := (List.nodup_cons.mp hnd).1
    have hab : a ≠ b := fun he => h1 (by rw [he]; exact List.mem_cons_self _ _)
    rcases List.mem_cons.mp harc with h | h
    · subst h
      exact ⟨hc, by rw [hsc]; exact List.mem_cons_self _ _,
        by rw [hsc]; exact List.mem_cons_of_mem _ (List.mem_cons_self _ _),
        hab⟩
    · rw [List.mem_singleton] at h
      subst h
      exact ⟨hc,
        by rw [hsc]; exact List.mem_cons_of_mem _ (List.mem_cons_self _ _),
        by rw [hsc]; exact List.mem_cons_self _ _, fun he => hab he.symm⟩
  · cases harc

theorem binaryArcs_inv (csp : Csp T) (doms : List (String × List T)) :
    arcINV csp (binaryArcs csp) doms := by
  intro c hc u v htr
  left
  rcases htr with h | h
  · exact (binaryArcs_mem csp c hc u v h).1
  · exact (binaryArcs_mem csp c hc v u h).2

theorem ac3_supported (csp : Csp T)
    (hloc : ∀ c ∈ csp.cons, scopeLocal c)
    (hscnd : ∀ c ∈ csp.cons, c.scope.Nodup)
    (huniq : ∀ c1 ∈ csp.cons, ∀ c2 ∈ csp.cons, ∀ u v : String,
      c1.scope = [u, v] → (c2.scope = [u, v] ∨ c2.scope = [v, u]) →
      c1 = c2) :
    ∀ (fuel : Nat) (Q : List (Arc T)) (doms doms' : List (String × List T)),
      arcWF csp Q → arcINV csp Q doms →
      ac3 csp fuel Q doms = some (true, doms') →
      ∀ c ∈ csp.cons, ∀ u v : String,
        (c.scope = [u, v] ∨ c.scope = [v, u]) → supported doms' u v c := by
  intro fuel
  induction fuel with
  | zero =>
    intro Q doms doms' _ _ h
    simp only [ac3] at h
    cases h
  | succ fuel ih =>
    intro Q doms doms' hwf hinv h
    cases Q with
    | nil =>
      simp only [ac3] at h
      injection h with h
      obtain ⟨-, h2⟩ := Prod.mk.injEq .. ▸ h
      subst h2
      intro c hc u v htr
      rcases hinv c hc u v htr with hin | hsup
      · cases hin
      · exact hsup
    | cons arc rest =>
      obtain ⟨xi, xj, c0⟩ := arc
      obtain ⟨hc0, hxi0, hxj0, hne0⟩ :=
        hwf (xi, xj, c0) (List.mem_cons_self _ _)
      simp only [ac3] at h
      cases hr : (revise doms xi xj c0).1 with
      | false =>
        rw [hr] at h
        simp only [Bool.false_eq_true, if_false] at h
        refine ih rest doms doms' ?_ ?_ h
        · exact fun arc ha => hwf arc (List.mem_cons_of_mem _ ha)
        · intro c hc u v htr
          rcases hinv c hc u v htr with hin | hsup
          · rcases List.mem_cons.mp hin with heq | hm
            · rw [Prod.mk.injEq, Prod.mk.injEq] at heq
              obtain ⟨rfl, rfl, rfl⟩ := heq
              exact Or.inr (revise_false_supported _ _ _ _ hr)
            · exact Or.inl hm
          · exact Or.inr hsup
      | true =>
        rw [hr] at h
        simp only [if_true] at h
        by_cases hemp : ((lookupD (revise doms xi xj c0).2 xi).isEmpty : Bool)
            = true
        · rw [if_pos hemp] at h
          injection h with h
          obtain ⟨h1, -⟩ := Prod.mk.injEq .. ▸ h
          cases h1
        · rw [if_neg hemp] at h
          have hnedom : lookupD (revise doms xi xj c0).2 xi ≠ [] := by
            intro hnil
            apply hemp
            rw [hnil]
            rfl
          have hsub0 := revise_true_scope_sub doms xi xj c0 hr hnedom
          have hscope0 : c0.scope = [xi, xj] ∨ c0.scope = [xj, xi] :=
            scope_pair c0.scope (hscnd c0 hc0) xi xj hxi0 hxj0 hne0 hsub0
          refine ih (rest ++ newArcs csp xi xj) _ doms' ?_ ?_ h
          · intro arc ha
            rcases List.mem_append.mp ha with ha | ha
            · exact hwf arc (List.mem_cons_of_mem _ ha)
            · exact newArcs_wf csp xi xj arc ha
          · intro c hc u v htr
            have huv : u ≠ v := by
              have hnd := hscnd c hc
              rcases htr with hh | hh
              · rw [hh] at hnd
                exact fun he => (List.nodup_cons.mp hnd).1
                  (by rw [he]; exact List.mem_cons_self _ _)
              · rw [hh] at hnd
                exact fun he => (List.nodup_cons.mp hnd).1
                  (by rw [he]; exact List.mem_cons_self _ _)
            rcases hinv c hc u v htr with hin | hsup
            · rcases List.mem_cons.mp hin with heq | hm
              · rw [Prod.mk.injEq, Prod.mk.injEq] at heq
                obtain ⟨rfl, rfl, rfl⟩ := heq
                exact Or.inr (revise_true_supported _ _ _ _ hr (Ne.symm hne0))
              · exact Or.inl (List.mem_append_left _ hm)
            · by_cases hvxi : v = xi
              · subst hvxi
                by_cases huxj : u = xj
                · subst huxj
                  have hceq : c = c0 := by
                    rcases htr with hh | hh
                    · exact huniq c hc c0 hc0 u v hh (Or.symm hscope0)
                    · exact huniq c hc c0 hc0 v u hh hscope0
                  subst hceq
                  right
                  intro b hb
                  rw [lookupD_revise_ne doms v u c u (Ne.symm hne0)] at hb
                  obtain ⟨a, ha, hsat⟩ := hsup b hb
                  have hrs : reviseSupport doms v u c a = true := by
                    unfold reviseSupport
                    rw [List.any_eq_true]
                    refine ⟨b, hb, ?_⟩
                    have hswap := sat_pairAssign_swap c (hloc c hc) v u a b
                      hne0
                    show c.isSatisfied (pairAssign v u a b) = true
                    rw [hswap]
                    exact hsat
                  refine ⟨a, ?_, hsat⟩
                  rw [lookupD_revise_self doms v u c hr]
                  exact List.mem_filter.mpr ⟨ha, hrs⟩
                · left
                  apply List.mem_append_right
                  refine mem_newArcs csp v xj u c hc ?_ ?_ huv huxj
                  · rcases htr with hh | hh
                    · rw [hh]
                      exact List.mem_cons_of_mem _ (List.mem_cons_self _ _)
                    · rw [hh]
                      exact List.mem_cons_self _ _
                  · rcases htr with hh | hh
                    · rw [hh]
                      exact List.mem_cons_self _ _
                    · rw [hh]
                      exact List.mem_cons_of_mem _ (List.mem_cons_self _ _)
              · right
                by_cases huxi : u = xi
                · subst huxi
                  intro a ha
                  obtain ⟨b, hb, hsat⟩ :=
                    hsup a (revise_subset doms u xj c0 u a ha)
                  refine ⟨b, ?_, hsat⟩
                  rw [lookupD_revise_ne doms u xj c0 v hvxi]
                  exact hb
                · intro a ha
                  rw [lookupD_revise_ne doms xi xj c0 u huxi] at ha
                  obtain ⟨b, hb, hsat⟩ := hsup a ha
                  refine ⟨b, ?_, hsat⟩
                  rw [lookupD_revise_ne doms xi xj c0 v hvxi]
                  exact hb

/-- Claim C9: when ac3 on the initial worklist of all binary-constraint
arcs returns true on the cloned domains, the pruned domains are arc
consistent — for every binary constraint and either orientation (u, v)
of its two-variable scope, every value retained for u has a supporting
value of v satisfying the constraint — and the set of complete
consistent assignments drawing values from the domains is unchanged.
Stated under the amended hypotheses: predicates are scope local,
registered variables are distinct, constraint scopes are duplicate free,
and no two distinct constraints share the same unordered scope pair. -/
theorem ac3_postconditions (csp : Csp T)
    (hloc : ∀ c ∈ csp.cons, scopeLocal c)
    (hvars : csp.getVariables.Nodup)
    (hscnd : ∀ c ∈ csp.cons, c.scope.Nodup)
    (huniq : ∀ c1 ∈ csp.cons, ∀ c2 ∈ csp.cons, ∀ u v : String,
      c1.scope = [u, v] → (c2.scope = [u, v] ∨ c2.scope = [v, u]) →
      c1 = c2)
    (fuel : Nat) (doms' : List (String × List T))
    (hrun : ac3 csp fuel (binaryArcs csp) csp.doms = some (true, doms')) :
    (∀ c ∈ csp.cons, ∀ u v : String,
      (c.scope = [u, v] ∨ c.scope = [v, u]) →
      ∀ a ∈ lookupD doms' u, ∃ b ∈ lookupD doms' v,
        c.isSatisfied (pairAssign u v a b) = true) ∧
    (∀ A, solutionWithin csp doms' A ↔ solutionWithin csp csp.doms A) := by
  constructor
  · intro c hc u v htr
    exact ac3_supported csp hloc hscnd huniq fuel (binaryArcs csp) csp.doms
      doms' (binaryArcs_wf csp hscnd) (binaryArcs_inv csp csp.doms) hrun
      c hc u v htr
  · exact ac3_solution_set csp hloc hvars fuel doms' hrun

/-- The inequality constraint of the C9 witness problem. -/
def c9wDiff : Constraint Nat :=
  ⟨"diff", ["x", "y"],
    fun A => decide (Assignment.get A "x" ≠ Assignment.get A "y")⟩

/-- The C9 witness problem: two 0/1 variables that must differ. -/
def c9w : Csp Nat := ⟨[("x", [0, 1]), ("y", [0, 1])], [c9wDiff]⟩

theorem ac3_postconditions_witness :
    (∀ c ∈ c9w.cons, ∀ u v : String,
      (c.scope = [u, v] ∨ c.scope = [v, u]) →
      ∀ a ∈ lookupD [("x", [0, 1]), ("y", [0, 1])] u,
        ∃ b ∈ lookupD [("x", [0, 1]), ("y", [0, 1])] v,
          c.isSatisfied (pairAssign u v a b) = true) ∧
    (∀ A, solutionWithin c9w [("x", [0, 1]), ("y", [0, 1])] A ↔
      solutionWithin c9w c9w.doms A) :=
  ac3_postconditions c9w
    (by
      intro c hc
      have he : c9w.cons = [c9wDiff] := rfl
      rw [he, List.mem_singleton] at hc
      subst hc
      intro A B h
      have hx := h "x" (by decide)
      have hy := h "y" (by decide)
      simp only [c9wDiff]
      rw [hx, hy])
    (by decide) (by decide)
    (by
      intro c1 h1 c2 h2 u v _ _
      have he : c9w.cons = [c9wDiff] := rfl
      rw [he, List.mem_singleton] at h1 h2
      rw [h1, h2])
    5 [("x", [0, 1]), ("y", [0, 1])] (by decide)

/-- The equality constraint of the C9 counterexample problem. -/
def c9xSame : Constraint Nat :=
  ⟨"same", ["x", "y"],
    fun A => decide (Assignment.get A "x" = Assignment.get A "y")⟩

/-- A second constraint on the same scope pair whose predicate only
constrains x. -/
def c9xZero : Constraint Nat :=
  ⟨"x_is_zero", ["x", "y"],
    fun A => decide (Assignment.get A "x" = some 0)⟩

/-- The C9 counterexample problem: two constraints on the same scope
pair. -/
def c9x : Csp Nat := ⟨[("x", [0, 1]), ("y", [0, 1])], [c9xSame, c9xZero]⟩

/-- Counterexample to claim C9 as stated: with two binary constraints on
the same scope pair, ac3 succeeds with x pruned to [0] and y left at
[0, 1], yet the retained value 1 of y has no supporting value of x under
the equality constraint: revising (y, x, same) was only queued before x
was pruned by the other constraint, and the pruning re-enqueues no arc
whose endpoints both lie in the revised constraint's scope. -/
theorem ac3_missing_support :
    ac3 c9x 9 (binaryArcs c9x) c9x.doms =
      some (true, [("x", [0]), ("y", [0, 1])]) ∧
    (1 : Nat) ∈ lookupD [("x", [0]), ("y", [0, 1])] "y" ∧
    c9xSame ∈ c9x.cons ∧ c9xSame.scope = ["x", "y"] ∧
    (lookupD [("x", [0]), ("y", [0, 1])] "x").all
      (fun b => !(c9xSame.isSatisfied (pairAssign "y" "x" 1 b))) = true := by
  refine ⟨by decide, by decide, List.mem_cons_self _ _, by decide, by decide⟩

end ClaimC9


end CspSolver
